import Mathlib

/-!
Verification of the pdfparse facade layer.

This file gives a shallow embedding of the two facades of the repository
(`HTMLToPDFConverter` in `html_to_pdf.py` and `PDFToTextParser` in
`pdf_to_text.py`) and proves or refutes the frozen specification claims
about them.

Modelling conventions:
* Python strings are `String` (lists of characters); a Python value that
  may be `None` or a string is `Option String` (`none` models `None`).
* Python exceptions are modelled with `Except`: a function that may raise
  returns `Except PyErr α`, and a `try/except` is an explicit `match`.
* The external PDF engines are abstracted: a document is a list of
  per-page outcomes (the engine either returns a value or raises), a flag
  saying whether opening the document raises, and an optional metadata
  mapping.
* The character classes used by the regexes in `_clean_text` are the ASCII
  fragments of the Python classes: `\s` is the six ASCII whitespace
  characters, `[A-Z]`/`[a-z]` are the ASCII letter ranges.
-/

/-- ASCII fragment of Python's `\s` class (and of `str.strip()`'s default
character set): space, tab, newline, carriage return, vertical tab, form feed. -/
def isPySpace (c : Char) : Bool :=
  c == ' ' || c == '\t' || c == '\n' || c == '\r' || c == '\x0b' || c == '\x0c'

/-- The regex class `[A-Z]`. -/
def isUpperAZ (c : Char) : Bool :=
  'A' ≤ c && c ≤ 'Z'

/-- The regex class `[a-z]`. -/
def isLowerAZ (c : Char) : Bool :=
  'a' ≤ c && c ≤ 'z'

/-- The regex class `[.!?]` of sentence-ending punctuation. -/
def isSentEnd (c : Char) : Bool :=
  c == '.' || c == '!' || c == '?'

/-- Contrapositive transport between boolean character classes. -/
theorem charClass_contra {p q : Char → Bool} (h : ∀ c, p c = true → q c = false)
    {c : Char} (hq : q c = true) : p c = false := by
  by_contra hp
  simp only [Bool.not_eq_false] at hp
  rw [h c hp] at hq
  exact Bool.noConfusion hq

theorem space_not_upper : ∀ c, isPySpace c = true → isUpperAZ c = false := by
  intro c h
  simp only [isPySpace, Bool.or_eq_true, beq_iff_eq] at h
  rcases h with ((((rfl | rfl) | rfl) | rfl) | rfl) | rfl <;> decide

theorem space_not_lower : ∀ c, isPySpace c = true → isLowerAZ c = false := by
  intro c h
  simp only [isPySpace, Bool.or_eq_true, beq_iff_eq] at h
  rcases h with ((((rfl | rfl) | rfl) | rfl) | rfl) | rfl <;> decide

theorem space_not_sentEnd : ∀ c, isPySpace c = true → isSentEnd c = false := by
  intro c h
  simp only [isPySpace, Bool.or_eq_true, beq_iff_eq] at h
  rcases h with ((((rfl | rfl) | rfl) | rfl) | rfl) | rfl <;> decide

theorem sentEnd_not_space : ∀ c, isSentEnd c = true → isPySpace c = false := by
  intro c h
  simp only [isSentEnd, Bool.or_eq_true, beq_iff_eq] at h
  rcases h with (rfl | rfl) | rfl <;> decide

theorem sentEnd_not_upper : ∀ c, isSentEnd c = true → isUpperAZ c = false := by
  intro c h
  simp only [isSentEnd, Bool.or_eq_true, beq_iff_eq] at h
  rcases h with (rfl | rfl) | rfl <;> decide

theorem upperAZ_not_space : ∀ c, isUpperAZ c = true → isPySpace c = false :=
  fun _ h => charClass_contra space_not_upper h

theorem upperAZ_not_sentEnd : ∀ c, isUpperAZ c = true → isSentEnd c = false := by
  intro c h
  refine charClass_contra ?_ h
  intro d hd
  simp only [isSentEnd, Bool.or_eq_true, beq_iff_eq] at hd
  rcases hd with (rfl | rfl) | rfl <;> decide

theorem upperAZ_not_lower : ∀ c, isUpperAZ c = true → isLowerAZ c = false := by
  intro c h
  simp only [isUpperAZ, Bool.and_eq_true, decide_eq_true_eq] at h
  by_contra hc
  simp only [Bool.not_eq_false, isLowerAZ, Bool.and_eq_true, decide_eq_true_eq] at hc
  exact absurd (le_trans hc.1 h.2) (by decide)

/-! ### The text-cleaning pass (`PDFToTextParser._clean_text`)

The Python body is four statements:
```
text = re.sub(r"\s+", " ", text)
text = text.strip()
text = re.sub(r"([.!?])\s*([A-Z])", r"\1 \2", text)
text = re.sub(r"([a-z])([A-Z])", r"\1 \2", text)
```
Each `re.sub` call is embedded as a recursive function implementing the
leftmost, non-overlapping scan of that particular pattern. -/

/-- Dropping a prefix can only shorten a list. -/
theorem dropWhileLenLe (p : Char → Bool) (l : List Char) :
    (l.dropWhile p).length ≤ l.length :=
  (List.dropWhile_suffix p).sublist.length_le

/-- `re.sub(r"\s+", " ", text)`: every maximal run of whitespace is replaced
by a single space (the pattern is greedy, so each match is a maximal run;
a whitespace character is absorbed while the run continues and the single
replacement space is emitted when the run ends). -/
def subWsRuns : List Char → List Char
  | [] => []
  | [c] => if isPySpace c then [' '] else [c]
  | a :: b :: rest =>
    if isPySpace a then
      if isPySpace b then subWsRuns (b :: rest)
      else ' ' :: subWsRuns (b :: rest)
    else a :: subWsRuns (b :: rest)

/-- `text.strip()`, leading side: drop leading whitespace. -/
def dropLeadWs (l : List Char) : List Char := l.dropWhile isPySpace

/-- `text.strip()`, trailing side: drop trailing whitespace. -/
def dropTrailWs : List Char → List Char
  | [] => []
  | c :: cs =>
    match dropTrailWs cs with
    | [] => if isPySpace c then [] else [c]
    | d :: ds => c :: d :: ds

/-- `text.strip()`. -/
def pyStrip (l : List Char) : List Char := dropTrailWs (dropLeadWs l)

/-- `str.strip()` at the `String` level. -/
def pyStripStr (s : String) : String := String.mk (pyStrip s.data)

/-- `re.sub(r"([.!?])\s*([A-Z])", r"\1 \2", text)`, with an explicit fuel
argument so that the scan is structurally recursive (the fuel only needs to
dominate the length of the text, and every step consumes at least one
character).  The scan is leftmost: at each match the punctuation mark, the
(greedy, possibly empty) whitespace run and the uppercase letter are consumed
and replaced by punctuation-space-letter.  Backtracking of `\s*` never helps
because `[A-Z]` matches no whitespace character, so only the maximal
whitespace run needs to be considered. -/
def subPunctUpperGo : Nat → List Char → List Char
  | 0, _ => []
  | _ + 1, [] => []
  | f + 1, c :: cs =>
    if isSentEnd c then
      match cs.dropWhile isPySpace with
      | d :: ds =>
        if isUpperAZ d then c :: ' ' :: d :: subPunctUpperGo f ds
        else c :: subPunctUpperGo f cs
      | [] => c :: subPunctUpperGo f cs
    else c :: subPunctUpperGo f cs

/-- The third rewriting pass of `_clean_text`. -/
def subPunctUpper (l : List Char) : List Char := subPunctUpperGo l.length l

theorem subPunctUpperGo_nil : ∀ f, subPunctUpperGo f [] = []
  | 0 => rfl
  | _ + 1 => rfl

theorem subPunctUpperGo_succ (f : Nat) (c : Char) (cs : List Char) :
    subPunctUpperGo (f + 1) (c :: cs) =
      if isSentEnd c then
        match cs.dropWhile isPySpace with
        | d :: ds =>
          if isUpperAZ d then c :: ' ' :: d :: subPunctUpperGo f ds
          else c :: subPunctUpperGo f cs
        | [] => c :: subPunctUpperGo f cs
      else c :: subPunctUpperGo f cs := rfl

theorem subPunctUpperGo_congr : ∀ f1 : Nat, ∀ l : List Char, ∀ f2 : Nat,
    l.length ≤ f1 → l.length ≤ f2 → subPunctUpperGo f1 l = subPunctUpperGo f2 l := by
  intro f1
  induction f1 with
  | zero =>
    intro l f2 h1 _
    have hl : l = [] := List.length_eq_zero.mp (Nat.le_zero.mp h1)
    subst hl
    rw [subPunctUpperGo_nil, subPunctUpperGo_nil]
  | succ f ih =>
    intro l f2 h1 h2
    cases l with
    | nil => rw [subPunctUpperGo_nil, subPunctUpperGo_nil]
    | cons c cs =>
      cases f2 with
      | zero => simp at h2
      | succ g =>
        simp only [List.length_cons] at h1 h2
        rw [subPunctUpperGo_succ, subPunctUpperGo_succ]
        by_cases hc : isSentEnd c = true
        · rw [if_pos hc, if_pos hc]
          cases hm : cs.dropWhile isPySpace with
          | nil =>
            show c :: subPunctUpperGo f cs = c :: subPunctUpperGo g cs
            rw [ih cs g (by omega) (by omega)]
          | cons d ds =>
            have hds : ds.length + 1 ≤ cs.length := by
              have h3 := dropWhileLenLe isPySpace cs
              rw [hm] at h3
              simpa using h3
            show (if isUpperAZ d then c :: ' ' :: d :: subPunctUpperGo f ds
                else c :: subPunctUpperGo f cs) =
              (if isUpperAZ d then c :: ' ' :: d :: subPunctUpperGo g ds
                else c :: subPunctUpperGo g cs)
            by_cases hd : isUpperAZ d = true
            · rw [if_pos hd, if_pos hd, ih ds g (by omega) (by omega)]
            · rw [if_neg hd, if_neg hd, ih cs g (by omega) (by omega)]
        · rw [if_neg hc, if_neg hc, ih cs g (by omega) (by omega)]

theorem subPunctUpper_induction (P : List Char → Prop)
    (case1 : P [])
    (case2 : ∀ a cs, isSentEnd a = true → ∀ d ds, cs.dropWhile isPySpace = d :: ds →
      isUpperAZ d = true → P ds → P (a :: cs))
    (case3 : ∀ a cs, isSentEnd a = true → ∀ d ds, cs.dropWhile isPySpace = d :: ds →
      ¬ isUpperAZ d = true → P cs → P (a :: cs))
    (case4 : ∀ a cs, isSentEnd a = true → cs.dropWhile isPySpace = [] → P cs → P (a :: cs))
    (case5 : ∀ a cs, ¬ isSentEnd a = true → P cs → P (a :: cs)) :
    ∀ l, P l := by
  have H : ∀ n, ∀ l : List Char, l.length ≤ n → P l := by
    intro n
    induction n with
    | zero =>
      intro l hl
      have : l = [] := List.length_eq_zero.mp (Nat.le_zero.mp hl)
      exact this ▸ case1
    | succ n ih =>
      intro l hl
      cases l with
      | nil => exact case1
      | cons a cs =>
        simp only [List.length_cons] at hl
        by_cases ha : isSentEnd a = true
        · cases hm : cs.dropWhile isPySpace with
          | nil => exact case4 a cs ha hm (ih cs (by omega))
          | cons d ds =>
            by_cases hd : isUpperAZ d = true
            · refine case2 a cs ha d ds hm hd (ih ds ?_)
              have h1 := dropWhileLenLe isPySpace cs
              rw [hm] at h1
              simp only [List.length_cons] at h1
              omega
            · exact case3 a cs ha d ds hm hd (ih cs (by omega))
        · exact case5 a cs ha (ih cs (by omega))
  exact fun l => H l.length l (le_refl _)

/-- `re.sub(r"([a-z])([A-Z])", r"\1 \2", text)`: a leftmost scan; at each
match the lowercase/uppercase pair is consumed and a space is put between. -/
def subLowerUpper : List Char → List Char
  | [] => []
  | [c] => [c]
  | a :: b :: rest =>
    if isLowerAZ a && isUpperAZ b then a :: ' ' :: b :: subLowerUpper rest
    else a :: subLowerUpper (b :: rest)

/-- `PDFToTextParser._clean_text` on an actual string: the `if not text`
guard followed by the four rewriting passes. -/
def cleanText (s : String) : String :=
  if s = "" then ""
  else String.mk (subLowerUpper (subPunctUpper (pyStrip (subWsRuns s.data))))

/-! ### Spec-side description of the cleaning pass (claim C4)

The claim describes the pass as: collapse whitespace runs, trim, ensure a
single space after `.`/`!`/`?` when immediately followed by an uppercase
letter, and insert a single space at every lowercase-to-uppercase letter
boundary.  The two insertion steps are stated here as plain adjacent-pair
insertions, to be compared with the regex scans of the source. -/

/-- Spec wording: a single space is ensured after each sentence-ending
punctuation mark that is immediately followed by an uppercase letter. -/
def specEnsurePU : List Char → List Char
  | [] => []
  | [c] => [c]
  | a :: b :: rest =>
    if isSentEnd a && isUpperAZ b then a :: ' ' :: specEnsurePU (b :: rest)
    else a :: specEnsurePU (b :: rest)

/-- Spec wording: a single space is inserted at every lowercase-letter to
uppercase-letter boundary. -/
def specInsertLU : List Char → List Char
  | [] => []
  | [c] => [c]
  | a :: b :: rest =>
    if isLowerAZ a && isUpperAZ b then a :: ' ' :: specInsertLU (b :: rest)
    else a :: specInsertLU (b :: rest)

/-- The cleaning pass exactly as the specification sentence describes it. -/
def specCleanText (s : String) : String :=
  if s = "" then ""
  else String.mk (specInsertLU (specEnsurePU (pyStrip (subWsRuns s.data))))

/-! ### Canonical-form predicates for the cleaning pipeline -/

/-- No adjacent pair of characters in the list satisfies `bad`. -/
def noPair (bad : Char → Char → Bool) : List Char → Prop
  | [] => True
  | [_] => True
  | a :: b :: rest => bad a b = false ∧ noPair bad (b :: rest)

/-- Adjacent whitespace-whitespace pair. -/
def badWW (a b : Char) : Bool := isPySpace a && isPySpace b

/-- Adjacent punctuation-uppercase pair. -/
def badPU (a b : Char) : Bool := isSentEnd a && isUpperAZ b

/-- Adjacent lowercase-uppercase pair. -/
def badLU (a b : Char) : Bool := isLowerAZ a && isUpperAZ b

/-- Every whitespace character in the list is a plain space. -/
def onlyPlainSp (l : List Char) : Prop :=
  ∀ c ∈ l, isPySpace c = true → c = ' '

/-- The first character, if any, is not whitespace. -/
def noLeadWsP : List Char → Prop
  | [] => True
  | c :: _ => isPySpace c = false

/-- The last character, if any, is not whitespace. -/
def noTrailWsP : List Char → Prop
  | [] => True
  | [c] => isPySpace c = false
  | _ :: b :: rest => noTrailWsP (b :: rest)

theorem noPair_cons {bad : Char → Char → Bool} {a : Char} {l : List Char}
    (h : noPair bad (a :: l)) : noPair bad l := by
  cases l with
  | nil => trivial
  | cons b rest => exact h.2

theorem noPair_pair {bad : Char → Char → Bool} {a b : Char} {l : List Char}
    (h : noPair bad (a :: b :: l)) : bad a b = false := h.1

theorem onlyPlainSp_cons {a : Char} {l : List Char} (h : onlyPlainSp (a :: l)) :
    onlyPlainSp l := fun c hc => h c (List.mem_cons_of_mem a hc)

/-! ### Utility lemmas about the predicates -/

theorem noPair_cons_intro {bad : Char → Char → Bool} {a : Char} {l : List Char}
    (h1 : ∀ b, l.head? = some b → bad a b = false) (h2 : noPair bad l) :
    noPair bad (a :: l) := by
  cases l with
  | nil => trivial
  | cons b rest => exact ⟨h1 b rfl, h2⟩

theorem noPair_head {bad : Char → Char → Bool} {a b : Char} {l : List Char}
    (h : noPair bad (a :: l)) (hb : l.head? = some b) : bad a b = false := by
  cases l with
  | nil => exact Option.noConfusion hb
  | cons c rest =>
    obtain rfl : c = b := by simpa using hb
    exact h.1

theorem noPair_append_right {bad : Char → Char → Bool} :
    ∀ t l : List Char, noPair bad (t ++ l) → noPair bad l
  | [], _, h => h
  | _ :: t, l, h => noPair_append_right t l (noPair_cons h)

theorem noPair_append_left {bad : Char → Char → Bool} :
    ∀ s t : List Char, noPair bad (s ++ t) → noPair bad s
  | [], _, _ => trivial
  | [_], _, _ => trivial
  | a :: b :: rest, t, h =>
    ⟨h.1, noPair_append_left (b :: rest) t h.2⟩

theorem noTrailWsP_cons_of_ne {a : Char} {l : List Char} (hl : l ≠ [])
    (h : noTrailWsP (a :: l)) : noTrailWsP l := by
  cases l with
  | nil => exact absurd rfl hl
  | cons b rest => exact h

theorem noTrailWsP_cons_intro {a : Char} {l : List Char} (hl : l ≠ [])
    (h : noTrailWsP l) : noTrailWsP (a :: l) := by
  cases l with
  | nil => exact absurd rfl hl
  | cons b rest => exact h

theorem noTrailWsP_append_right {l2 : List Char} (h2 : l2 ≠ []) :
    ∀ l1 : List Char, noTrailWsP (l1 ++ l2) → noTrailWsP l2
  | [], h => h
  | a :: l1, h => by
    have hne : l1 ++ l2 ≠ [] := by
      intro hc
      exact h2 (List.append_eq_nil.mp hc).2
    exact noTrailWsP_append_right h2 l1 (noTrailWsP_cons_of_ne hne h)

/-! ### The collapse pass produces canonical whitespace -/

theorem dropWhile_noLead (l : List Char) : noLeadWsP (l.dropWhile isPySpace) := by
  induction l with
  | nil => trivial
  | cons c cs ih =>
    by_cases h : isPySpace c = true
    · rwa [List.dropWhile_cons_of_pos h]
    · rw [List.dropWhile_cons_of_neg h]
      simpa [noLeadWsP] using h

theorem subWsRuns_nil : subWsRuns [] = [] := rfl

theorem subWsRuns_one (c : Char) :
    subWsRuns [c] = if isPySpace c then [' '] else [c] := rfl

theorem subWsRuns_two (a b : Char) (rest : List Char) :
    subWsRuns (a :: b :: rest) =
      if isPySpace a then
        if isPySpace b then subWsRuns (b :: rest)
        else ' ' :: subWsRuns (b :: rest)
      else a :: subWsRuns (b :: rest) := rfl

theorem subWsRuns_head_nonWs {b : Char} {rest : List Char} (hb : isPySpace b = false) :
    (subWsRuns (b :: rest)).head? = some b := by
  cases rest with
  | nil =>
    rw [subWsRuns_one, if_neg (by simp [hb])]
    rfl
  | cons c cr =>
    rw [subWsRuns_two, if_neg (by simp [hb])]
    rfl

theorem subWsRuns_noLead (l : List Char) (h : noLeadWsP l) : noLeadWsP (subWsRuns l) := by
  cases l with
  | nil => trivial
  | cons c cs =>
    have hc : isPySpace c = false := h
    cases cs with
    | nil =>
      rw [subWsRuns_one, if_neg (by simp [hc])]
      exact hc
    | cons b rest =>
      rw [subWsRuns_two, if_neg (by simp [hc])]
      exact hc

theorem subWsRuns_onlyPlain (l : List Char) : onlyPlainSp (subWsRuns l) := by
  induction l using subWsRuns.induct with
  | case1 => intro c hc _; rw [subWsRuns_nil] at hc; simp at hc
  | case2 c hc =>
    intro x hx hws
    rw [subWsRuns_one, if_pos hc] at hx
    simpa using hx
  | case3 c hc =>
    intro x hx hws
    rw [subWsRuns_one, if_neg hc] at hx
    have : x = c := by simpa using hx
    subst this
    exact absurd hws hc
  | case4 a b rest ha hb ih =>
    rw [subWsRuns_two, if_pos ha, if_pos hb]
    exact ih
  | case5 a b rest ha hb ih =>
    rw [subWsRuns_two, if_pos ha, if_neg hb]
    intro x hx hws
    rcases List.mem_cons.mp hx with rfl | hx'
    · rfl
    · exact ih x hx' hws
  | case6 a b rest ha ih =>
    rw [subWsRuns_two, if_neg ha]
    intro x hx hws
    rcases List.mem_cons.mp hx with rfl | hx'
    · exact absurd hws (by simpa using ha)
    · exact ih x hx' hws

theorem subWsRuns_noPairWW (l : List Char) : noPair badWW (subWsRuns l) := by
  induction l using subWsRuns.induct with
  | case1 => trivial
  | case2 c hc => rw [subWsRuns_one, if_pos hc]; trivial
  | case3 c hc => rw [subWsRuns_one, if_neg hc]; trivial
  | case4 a b rest ha hb ih =>
    rw [subWsRuns_two, if_pos ha, if_pos hb]
    exact ih
  | case5 a b rest ha hb ih =>
    rw [subWsRuns_two, if_pos ha, if_neg hb]
    refine noPair_cons_intro ?_ ih
    intro x hx
    have hbb : isPySpace b = false := by simpa using hb
    rw [subWsRuns_head_nonWs hbb] at hx
    have : b = x := by simpa using hx
    subst this
    rw [badWW, hbb]
    simp
  | case6 a b rest ha ih =>
    rw [subWsRuns_two, if_neg ha]
    refine noPair_cons_intro ?_ ih
    intro x _
    rw [badWW, show isPySpace a = false by simpa using ha]
    simp

/-! ### The strip pass: structure and preserved invariants -/

theorem dropTrailWs_sublist : ∀ l : List Char, List.Sublist (dropTrailWs l) l := by
  intro l
  induction l with
  | nil => simp [dropTrailWs]
  | cons c cs ih =>
    rw [dropTrailWs]
    cases hm : dropTrailWs cs with
    | nil =>
      by_cases h : isPySpace c = true
      · simp [h]
      · simp only [h, if_neg]
        simp only [Bool.false_eq_true, if_false]
        exact (List.nil_sublist cs).cons₂ c
    | cons d ds =>
      rw [hm] at ih
      exact ih.cons₂ c

theorem dropTrailWs_isPre : ∀ l : List Char, ∃ t, l = dropTrailWs l ++ t := by
  intro l
  induction l with
  | nil => exact ⟨[], rfl⟩
  | cons c cs ih =>
    obtain ⟨t, ht⟩ := ih
    rw [dropTrailWs]
    cases hm : dropTrailWs cs with
    | nil =>
      rw [hm] at ht
      by_cases h : isPySpace c = true
      · exact ⟨c :: cs, by simp [h]⟩
      · refine ⟨t, ?_⟩
        simp only [h, Bool.false_eq_true, if_false]
        simpa using ht
    | cons d ds =>
      rw [hm] at ht
      exact ⟨t, by simpa using ht⟩

theorem dropTrailWs_noTrail : ∀ l : List Char, noTrailWsP (dropTrailWs l) := by
  intro l
  induction l with
  | nil => simp [dropTrailWs, noTrailWsP]
  | cons c cs ih =>
    rw [dropTrailWs]
    cases hm : dropTrailWs cs with
    | nil =>
      by_cases h : isPySpace c = true
      · simp [h, noTrailWsP]
      · simp only [h, Bool.false_eq_true, if_false]
        simpa [noTrailWsP] using h
    | cons d ds =>
      rw [hm] at ih
      exact noTrailWsP_cons_intro (by simp) ih

theorem dropTrailWs_noLead {l : List Char} (h : noLeadWsP l) : noLeadWsP (dropTrailWs l) := by
  cases l with
  | nil => simp [dropTrailWs, noLeadWsP]
  | cons c cs =>
    rw [dropTrailWs]
    cases dropTrailWs cs with
    | nil =>
      by_cases hc : isPySpace c = true
      · simp [hc, noLeadWsP]
      · simpa [hc, noLeadWsP] using h
    | cons d ds => exact h

theorem pyStrip_noLead (l : List Char) : noLeadWsP (pyStrip l) :=
  dropTrailWs_noLead (dropWhile_noLead l)

theorem pyStrip_noTrail (l : List Char) : noTrailWsP (pyStrip l) :=
  dropTrailWs_noTrail _

theorem pyStrip_onlyPlain {l : List Char} (h : onlyPlainSp l) : onlyPlainSp (pyStrip l) := by
  intro c hc hws
  refine h c ?_ hws
  have h1 : c ∈ dropLeadWs l := (dropTrailWs_sublist _).subset hc
  exact ((List.dropWhile_suffix isPySpace).sublist.subset) h1

theorem pyStrip_noPair {bad : Char → Char → Bool} {l : List Char}
    (h : noPair bad l) : noPair bad (pyStrip l) := by
  obtain ⟨t0, ht0⟩ := List.dropWhile_suffix (l := l) isPySpace
  have h1 : noPair bad (dropLeadWs l) := by
    refine noPair_append_right t0 _ ?_
    rw [dropLeadWs, ht0]
    exact h
  obtain ⟨t1, ht1⟩ := dropTrailWs_isPre (dropLeadWs l)
  rw [pyStrip]
  refine noPair_append_left _ t1 ?_
  rw [← ht1]
  exact h1

/-! ### Structure of the sentence-punctuation pass -/

theorem subPunctUpper_nil : subPunctUpper [] = [] := rfl

theorem subPunctUpper_cons_ins {c d : Char} {cs ds : List Char}
    (hc : isSentEnd c = true) (hm : cs.dropWhile isPySpace = d :: ds)
    (hd : isUpperAZ d = true) :
    subPunctUpper (c :: cs) = c :: ' ' :: d :: subPunctUpper ds := by
  have hds : ds.length ≤ cs.length := by
    have h3 := dropWhileLenLe isPySpace cs
    rw [hm] at h3
    simp only [List.length_cons] at h3
    omega
  show subPunctUpperGo (cs.length + 1) (c :: cs) = _
  rw [subPunctUpperGo_succ, if_pos hc, hm]
  show (if isUpperAZ d then c :: ' ' :: d :: subPunctUpperGo cs.length ds
      else c :: subPunctUpperGo cs.length cs) = _
  rw [if_pos hd, subPunctUpperGo_congr cs.length ds ds.length hds (le_refl _)]
  rfl

theorem subPunctUpper_cons_skip1 {c d : Char} {cs ds : List Char}
    (hc : isSentEnd c = true) (hm : cs.dropWhile isPySpace = d :: ds)
    (hd : isUpperAZ d = false) :
    subPunctUpper (c :: cs) = c :: subPunctUpper cs := by
  show subPunctUpperGo (cs.length + 1) (c :: cs) = _
  rw [subPunctUpperGo_succ, if_pos hc, hm]
  show (if isUpperAZ d then c :: ' ' :: d :: subPunctUpperGo cs.length ds
      else c :: subPunctUpperGo cs.length cs) = _
  rw [if_neg (by simp [hd])]
  rfl

theorem subPunctUpper_cons_skip2 {c : Char} {cs : List Char}
    (hc : isSentEnd c = true) (hm : cs.dropWhile isPySpace = []) :
    subPunctUpper (c :: cs) = c :: subPunctUpper cs := by
  show subPunctUpperGo (cs.length + 1) (c :: cs) = _
  rw [subPunctUpperGo_succ, if_pos hc, hm]
  rfl

theorem subPunctUpper_cons_skip3 {c : Char} {cs : List Char}
    (hc : isSentEnd c = false) :
    subPunctUpper (c :: cs) = c :: subPunctUpper cs := by
  show subPunctUpperGo (cs.length + 1) (c :: cs) = _
  rw [subPunctUpperGo_succ, if_neg (by simp [hc])]
  rfl

theorem subPunctUpper_head (l : List Char) : (subPunctUpper l).head? = l.head? := by
  cases l with
  | nil => rfl
  | cons c cs =>
    by_cases hc : isSentEnd c = true
    · cases hm : cs.dropWhile isPySpace with
      | nil =>
        rw [subPunctUpper_cons_skip2 hc hm]
        rfl
      | cons d ds =>
        by_cases hd : isUpperAZ d = true
        · rw [subPunctUpper_cons_ins hc hm hd]
          rfl
        · rw [subPunctUpper_cons_skip1 hc hm (eq_false_of_ne_true hd)]
          rfl
    · rw [subPunctUpper_cons_skip3 (eq_false_of_ne_true hc)]
      rfl

theorem subPunctUpper_ne_nil {l : List Char} (h : l ≠ []) : subPunctUpper l ≠ [] := by
  intro hc
  have hh := subPunctUpper_head l
  rw [hc] at hh
  cases l with
  | nil => exact h rfl
  | cons c cs => exact Option.noConfusion hh

theorem subPunctUpper_mem {c : Char} : ∀ l : List Char, c ∈ subPunctUpper l → c ∈ l ∨ c = ' ' := by
  intro l
  induction l using subPunctUpper_induction with
  | case1 => intro hc; rw [subPunctUpper_nil] at hc; simp at hc
  | case2 a cs ha d ds hm hd ih =>
    intro hc
    rw [subPunctUpper_cons_ins ha hm hd] at hc
    have hsub : d :: ds <:+ cs := hm ▸ List.dropWhile_suffix isPySpace
    rcases List.mem_cons.mp hc with rfl | hc
    · exact Or.inl (List.mem_cons_self _ _)
    rcases List.mem_cons.mp hc with rfl | hc
    · exact Or.inr rfl
    rcases List.mem_cons.mp hc with rfl | hc
    · exact Or.inl (List.mem_cons_of_mem _ (hsub.sublist.subset (List.mem_cons_self _ _)))
    · rcases ih hc with hin | hsp
      · exact Or.inl (List.mem_cons_of_mem _ (hsub.sublist.subset (List.mem_cons_of_mem _ hin)))
      · exact Or.inr hsp
  | case3 a cs ha d ds hm hd ih =>
    intro hc
    rw [subPunctUpper_cons_skip1 ha hm (Bool.not_eq_true _ ▸ eq_false_of_ne_true hd)] at hc
    rcases List.mem_cons.mp hc with rfl | hc
    · exact Or.inl (List.mem_cons_self _ _)
    · rcases ih hc with hin | hsp
      · exact Or.inl (List.mem_cons_of_mem _ hin)
      · exact Or.inr hsp
  | case4 a cs ha hm ih =>
    intro hc
    rw [subPunctUpper_cons_skip2 ha hm] at hc
    rcases List.mem_cons.mp hc with rfl | hc
    · exact Or.inl (List.mem_cons_self _ _)
    · rcases ih hc with hin | hsp
      · exact Or.inl (List.mem_cons_of_mem _ hin)
      · exact Or.inr hsp
  | case5 a cs ha ih =>
    intro hc
    rw [subPunctUpper_cons_skip3 (eq_false_of_ne_true ha)] at hc
    rcases List.mem_cons.mp hc with rfl | hc
    · exact Or.inl (List.mem_cons_self _ _)
    · rcases ih hc with hin | hsp
      · exact Or.inl (List.mem_cons_of_mem _ hin)
      · exact Or.inr hsp

theorem subPunctUpper_onlyPlain {l : List Char} (h : onlyPlainSp l) :
    onlyPlainSp (subPunctUpper l) := by
  intro c hc hws
  rcases subPunctUpper_mem l hc with hin | hsp
  · exact h c hin hws
  · exact hsp

theorem subPunctUpper_noTrail : ∀ l : List Char, noTrailWsP l → noTrailWsP (subPunctUpper l) := by
  intro l
  induction l using subPunctUpper_induction with
  | case1 => intro _; rw [subPunctUpper_nil]; trivial
  | case2 a cs ha d ds hm hd ih =>
    intro h
    rw [subPunctUpper_cons_ins ha hm hd]
    have hcs := List.takeWhile_append_dropWhile isPySpace cs
    rw [hm] at hcs
    by_cases hds : ds = []
    · rw [hds, subPunctUpper_nil]
      show noTrailWsP [a, ' ', d]
      simpa [noTrailWsP] using upperAZ_not_space d hd
    · have hdsne : ds ≠ [] := hds
      have hcsne : cs ≠ [] := by
        intro hc
        rw [hc] at hm
        simp at hm
      have h1 : noTrailWsP cs := noTrailWsP_cons_of_ne hcsne h
      have h2 : noTrailWsP (d :: ds) := by
        refine noTrailWsP_append_right (by simp) (cs.takeWhile isPySpace) ?_
        rw [hcs]
        exact h1
      have h3 : noTrailWsP ds := noTrailWsP_cons_of_ne hdsne h2
      have h4 := ih h3
      have h5 : subPunctUpper ds ≠ [] := subPunctUpper_ne_nil hdsne
      exact noTrailWsP_cons_intro (by simp)
        (noTrailWsP_cons_intro (by simp) (noTrailWsP_cons_intro h5 h4))
  | case3 a cs ha d ds hm hd ih =>
    intro h
    rw [subPunctUpper_cons_skip1 ha hm (eq_false_of_ne_true hd)]
    have hcsne : cs ≠ [] := by
      intro hc
      rw [hc] at hm
      simp at hm
    exact noTrailWsP_cons_intro (subPunctUpper_ne_nil hcsne)
      (ih (noTrailWsP_cons_of_ne hcsne h))
  | case4 a cs ha hm ih =>
    intro h
    rw [subPunctUpper_cons_skip2 ha hm]
    cases hcs : cs with
    | nil =>
      rw [subPunctUpper_nil]
      rw [hcs] at h
      exact h
    | cons x xs =>
      have hcsne : cs ≠ [] := by rw [hcs]; simp
      rw [← hcs]
      exact noTrailWsP_cons_intro (subPunctUpper_ne_nil hcsne)
        (ih (noTrailWsP_cons_of_ne hcsne h))
  | case5 a cs ha ih =>
    intro h
    rw [subPunctUpper_cons_skip3 (eq_false_of_ne_true ha)]
    cases hcs : cs with
    | nil =>
      rw [subPunctUpper_nil]
      rw [hcs] at h
      exact h
    | cons x xs =>
      have hcsne : cs ≠ [] := by rw [hcs]; simp
      rw [← hcs]
      exact noTrailWsP_cons_intro (subPunctUpper_ne_nil hcsne)
        (ih (noTrailWsP_cons_of_ne hcsne h))

theorem subPunctUpper_noPair {bad : Char → Char → Bool}
    (hbL : ∀ x, isSentEnd x = true → bad x ' ' = false)
    (hbR : ∀ x, isUpperAZ x = true → bad ' ' x = false) :
    ∀ l : List Char, noPair bad l → noPair bad (subPunctUpper l) := by
  intro l
  induction l using subPunctUpper_induction with
  | case1 => intro _; rw [subPunctUpper_nil]; trivial
  | case2 a cs ha d ds hm hd ih =>
    intro h
    rw [subPunctUpper_cons_ins ha hm hd]
    have hcs := List.takeWhile_append_dropWhile isPySpace cs
    rw [hm] at hcs
    have hdds : noPair bad (d :: ds) := by
      refine noPair_append_right (cs.takeWhile isPySpace) _ ?_
      rw [hcs]
      exact noPair_cons h
    refine ⟨hbL a ha, hbR d hd, ?_⟩
    refine noPair_cons_intro ?_ (ih (noPair_cons hdds))
    intro b hb
    rw [subPunctUpper_head] at hb
    exact noPair_head hdds hb
  | case3 a cs ha d ds hm hd ih =>
    intro h
    rw [subPunctUpper_cons_skip1 ha hm (eq_false_of_ne_true hd)]
    refine noPair_cons_intro ?_ (ih (noPair_cons h))
    intro b hb
    rw [subPunctUpper_head] at hb
    exact noPair_head h hb
  | case4 a cs ha hm ih =>
    intro h
    rw [subPunctUpper_cons_skip2 ha hm]
    refine noPair_cons_intro ?_ (ih (noPair_cons h))
    intro b hb
    rw [subPunctUpper_head] at hb
    exact noPair_head h hb
  | case5 a cs ha ih =>
    intro h
    rw [subPunctUpper_cons_skip3 (eq_false_of_ne_true ha)]
    refine noPair_cons_intro ?_ (ih (noPair_cons h))
    intro b hb
    rw [subPunctUpper_head] at hb
    exact noPair_head h hb

theorem subPunctUpper_noPairPU : ∀ l : List Char, noPair badPU (subPunctUpper l) := by
  intro l
  induction l using subPunctUpper_induction with
  | case1 => rw [subPunctUpper_nil]; trivial
  | case2 a cs ha d ds hm hd ih =>
    rw [subPunctUpper_cons_ins ha hm hd]
    refine ⟨?_, ?_, ?_⟩
    · rw [badPU, show isUpperAZ ' ' = false from by decide]
      simp
    · rw [badPU, show isSentEnd ' ' = false from by decide]
      simp
    · refine noPair_cons_intro ?_ ih
      intro b _
      rw [badPU, upperAZ_not_sentEnd d hd]
      simp
  | case3 a cs ha d ds hm hd ih =>
    rw [subPunctUpper_cons_skip1 ha hm (eq_false_of_ne_true hd)]
    refine noPair_cons_intro ?_ ih
    intro b hb
    rw [subPunctUpper_head] at hb
    cases cs with
    | nil => simp at hm
    | cons x xs =>
      obtain rfl : x = b := by simpa using hb
      by_cases hx : isPySpace x = true
      · rw [badPU, space_not_upper x hx]
        simp
      · rw [List.dropWhile_cons_of_neg (by simpa using hx)] at hm
        injection hm with hm1 hm2
        subst hm1
        rw [badPU, eq_false_of_ne_true hd]
        simp
  | case4 a cs ha hm ih =>
    rw [subPunctUpper_cons_skip2 ha hm]
    refine noPair_cons_intro ?_ ih
    intro b hb
    rw [subPunctUpper_head] at hb
    cases cs with
    | nil => simp at hb
    | cons x xs =>
      obtain rfl : x = b := by simpa using hb
      by_cases hx : isPySpace x = true
      · rw [badPU, space_not_upper x hx]
        simp
      · rw [List.dropWhile_cons_of_neg (by simpa using hx)] at hm
        simp at hm
  | case5 a cs ha ih =>
    rw [subPunctUpper_cons_skip3 (eq_false_of_ne_true ha)]
    refine noPair_cons_intro ?_ ih
    intro b _
    rw [badPU, eq_false_of_ne_true ha]
    simp

theorem subPunctUpper_id : ∀ l : List Char, noPair badPU l → noPair badWW l →
    onlyPlainSp l → subPunctUpper l = l := by
  intro l
  induction l using subPunctUpper_induction with
  | case1 => intro _ _ _; rw [subPunctUpper_nil]
  | case2 a cs ha d ds hm hd ih =>
    intro h1 h2 h3
    rw [subPunctUpper_cons_ins ha hm hd]
    cases cs with
    | nil => simp at hm
    | cons x xs =>
      by_cases hx : isPySpace x = true
      · have hxsp : x = ' ' := h3 x (List.mem_cons_of_mem _ (List.mem_cons_self _ _)) hx
        subst hxsp
        rw [List.dropWhile_cons_of_pos hx] at hm
        cases xs with
        | nil => simp at hm
        | cons y ys =>
          by_cases hy : isPySpace y = true
          · exfalso
            have hpair : badWW ' ' y = false := h2.2.1
            rw [badWW, hy, show isPySpace ' ' = true from by decide] at hpair
            simp at hpair
          · rw [List.dropWhile_cons_of_neg (by simpa using hy)] at hm
            injection hm with hm1 hm2
            subst hm1
            subst hm2
            have ihid :=
              ih (noPair_cons (noPair_cons (noPair_cons h1)))
                (noPair_cons (noPair_cons (noPair_cons h2)))
                (fun c hc hw => h3 c (List.mem_cons_of_mem _
                  (List.mem_cons_of_mem _ (List.mem_cons_of_mem _ hc))) hw)
            rw [ihid]
      · exfalso
        rw [List.dropWhile_cons_of_neg (by simpa using hx)] at hm
        injection hm with hm1 hm2
        subst hm1
        have hpair : badPU a x = false := h1.1
        rw [badPU, ha, hd] at hpair
        simp at hpair
  | case3 a cs ha d ds hm hd ih =>
    intro h1 h2 h3
    rw [subPunctUpper_cons_skip1 ha hm (eq_false_of_ne_true hd)]
    rw [ih (noPair_cons h1) (noPair_cons h2) (onlyPlainSp_cons h3)]
  | case4 a cs ha hm ih =>
    intro h1 h2 h3
    rw [subPunctUpper_cons_skip2 ha hm]
    rw [ih (noPair_cons h1) (noPair_cons h2) (onlyPlainSp_cons h3)]
  | case5 a cs ha ih =>
    intro h1 h2 h3
    rw [subPunctUpper_cons_skip3 (eq_false_of_ne_true ha)]
    rw [ih (noPair_cons h1) (noPair_cons h2) (onlyPlainSp_cons h3)]

/-! ### Structure of the lowercase-uppercase pass -/

theorem subLowerUpper_nil : subLowerUpper [] = [] := by
  rw [subLowerUpper]

theorem subLowerUpper_single (c : Char) : subLowerUpper [c] = [c] := by
  rw [subLowerUpper]

theorem subLowerUpper_cons_ins {a b : Char} {rest : List Char}
    (h : (isLowerAZ a && isUpperAZ b) = true) :
    subLowerUpper (a :: b :: rest) = a :: ' ' :: b :: subLowerUpper rest := by
  rw [subLowerUpper.eq_def]
  simp [h]

theorem subLowerUpper_cons_skip {a b : Char} {rest : List Char}
    (h : (isLowerAZ a && isUpperAZ b) = false) :
    subLowerUpper (a :: b :: rest) = a :: subLowerUpper (b :: rest) := by
  rw [subLowerUpper.eq_def]
  simp [h]

theorem subLowerUpper_head (l : List Char) : (subLowerUpper l).head? = l.head? := by
  rw [subLowerUpper.eq_def]
  repeat' split
  all_goals rfl

theorem subLowerUpper_ne_nil {l : List Char} (h : l ≠ []) : subLowerUpper l ≠ [] := by
  intro hc
  have hh := subLowerUpper_head l
  rw [hc] at hh
  cases l with
  | nil => exact h rfl
  | cons c cs => exact Option.noConfusion hh

theorem subLowerUpper_mem {c : Char} : ∀ l : List Char, c ∈ subLowerUpper l → c ∈ l ∨ c = ' ' := by
  intro l
  induction l using subLowerUpper.induct with
  | case1 => intro hc; rw [subLowerUpper_nil] at hc; simp at hc
  | case2 x => intro hc; rw [subLowerUpper_single] at hc; exact Or.inl hc
  | case3 a b rest h ih =>
    intro hc
    rw [subLowerUpper_cons_ins h] at hc
    rcases List.mem_cons.mp hc with rfl | hc
    · exact Or.inl (List.mem_cons_self _ _)
    rcases List.mem_cons.mp hc with rfl | hc
    · exact Or.inr rfl
    rcases List.mem_cons.mp hc with rfl | hc
    · exact Or.inl (List.mem_cons_of_mem _ (List.mem_cons_self _ _))
    · rcases ih hc with hin | hsp
      · exact Or.inl (List.mem_cons_of_mem _ (List.mem_cons_of_mem _ hin))
      · exact Or.inr hsp
  | case4 a b rest h ih =>
    intro hc
    rw [subLowerUpper_cons_skip (eq_false_of_ne_true h)] at hc
    rcases List.mem_cons.mp hc with rfl | hc
    · exact Or.inl (List.mem_cons_self _ _)
    · rcases ih hc with hin | hsp
      · exact Or.inl (List.mem_cons_of_mem _ hin)
      · exact Or.inr hsp

theorem subLowerUpper_onlyPlain {l : List Char} (h : onlyPlainSp l) :
    onlyPlainSp (subLowerUpper l) := by
  intro c hc hws
  rcases subLowerUpper_mem l hc with hin | hsp
  · exact h c hin hws
  · exact hsp

theorem subLowerUpper_noTrail : ∀ l : List Char, noTrailWsP l → noTrailWsP (subLowerUpper l) := by
  intro l
  induction l using subLowerUpper.induct with
  | case1 => intro _; rw [subLowerUpper_nil]; trivial
  | case2 x => intro h; rw [subLowerUpper_single]; exact h
  | case3 a b rest h ih =>
    intro ht
    rw [subLowerUpper_cons_ins h]
    cases rest with
    | nil =>
      rw [subLowerUpper_nil]
      show noTrailWsP [a, ' ', b]
      have hb : isUpperAZ b = true := by
        rcases Bool.and_eq_true_iff.mp h with ⟨_, hb⟩
        exact hb
      simpa [noTrailWsP] using upperAZ_not_space b hb
    | cons e es =>
      have hne : (e :: es : List Char) ≠ [] := by simp
      have h1 : noTrailWsP (e :: es) :=
        noTrailWsP_cons_of_ne hne (noTrailWsP_cons_of_ne (by simp) ht)
      exact noTrailWsP_cons_intro (by simp)
        (noTrailWsP_cons_intro (by simp)
          (noTrailWsP_cons_intro (subLowerUpper_ne_nil hne) (ih h1)))
  | case4 a b rest h ih =>
    intro ht
    rw [subLowerUpper_cons_skip (eq_false_of_ne_true h)]
    exact noTrailWsP_cons_intro (subLowerUpper_ne_nil (by simp))
      (ih (noTrailWsP_cons_of_ne (by simp) ht))

theorem subLowerUpper_noPair {bad : Char → Char → Bool}
    (hbL : ∀ x, isLowerAZ x = true → bad x ' ' = false)
    (hbR : ∀ x, isUpperAZ x = true → bad ' ' x = false) :
    ∀ l : List Char, noPair bad l → noPair bad (subLowerUpper l) := by
  intro l
  induction l using subLowerUpper.induct with
  | case1 => intro _; rw [subLowerUpper_nil]; trivial
  | case2 x => intro h; rw [subLowerUpper_single]; exact h
  | case3 a b rest h ih =>
    intro hp
    rw [subLowerUpper_cons_ins h]
    rcases Bool.and_eq_true_iff.mp h with ⟨ha, hb⟩
    refine ⟨hbL a ha, hbR b hb, ?_⟩
    refine noPair_cons_intro ?_ (ih (noPair_cons (noPair_cons hp)))
    intro c hc
    rw [subLowerUpper_head] at hc
    exact noPair_head (noPair_cons hp) hc
  | case4 a b rest h ih =>
    intro hp
    rw [subLowerUpper_cons_skip (eq_false_of_ne_true h)]
    refine noPair_cons_intro ?_ (ih (noPair_cons hp))
    intro c hc
    rw [subLowerUpper_head] at hc
    exact noPair_head hp hc

theorem subLowerUpper_noPairLU : ∀ l : List Char, noPair badLU (subLowerUpper l) := by
  intro l
  induction l using subLowerUpper.induct with
  | case1 => rw [subLowerUpper_nil]; trivial
  | case2 x => rw [subLowerUpper_single]; trivial
  | case3 a b rest h ih =>
    rw [subLowerUpper_cons_ins h]
    rcases Bool.and_eq_true_iff.mp h with ⟨_, hb⟩
    refine ⟨?_, ?_, ?_⟩
    · rw [badLU, show isUpperAZ ' ' = false from by decide]
      simp
    · rw [badLU, show isLowerAZ ' ' = false from by decide]
      simp
    · refine noPair_cons_intro ?_ ih
      intro c _
      rw [badLU, upperAZ_not_lower b hb]
      simp
  | case4 a b rest h ih =>
    rw [subLowerUpper_cons_skip (eq_false_of_ne_true h)]
    refine noPair_cons_intro ?_ ih
    intro c hc
    rw [subLowerUpper_head] at hc
    have hcb : b = c := by simpa using hc
    rw [← hcb, badLU]
    exact eq_false_of_ne_true h

theorem subLowerUpper_id : ∀ l : List Char, noPair badLU l → subLowerUpper l = l := by
  intro l
  induction l using subLowerUpper.induct with
  | case1 => intro _; rw [subLowerUpper_nil]
  | case2 x => intro _; rw [subLowerUpper_single]
  | case3 a b rest h ih =>
    intro hp
    exfalso
    have hb := hp.1
    rw [badLU] at hb
    rw [hb] at h
    exact Bool.noConfusion h
  | case4 a b rest h ih =>
    intro hp
    rw [subLowerUpper_cons_skip (eq_false_of_ne_true h), ih (noPair_cons hp)]

/-! ### Fixpoint lemmas: canonical text is untouched by each pass -/

theorem noLeadWsP_of_head (l : List Char)
    (h : ∀ c, l.head? = some c → isPySpace c = false) : noLeadWsP l := by
  cases l with
  | nil => trivial
  | cons c cs => exact h c rfl

theorem noLeadWsP_head {l : List Char} (h : noLeadWsP l) :
    ∀ c, l.head? = some c → isPySpace c = false := by
  intro c hc
  cases l with
  | nil => exact Option.noConfusion hc
  | cons x xs =>
    have : x = c := by simpa using hc
    subst this
    exact h

theorem subPunctUpper_noLead {l : List Char} (h : noLeadWsP l) :
    noLeadWsP (subPunctUpper l) := by
  refine noLeadWsP_of_head _ ?_
  intro c hc
  rw [subPunctUpper_head] at hc
  exact noLeadWsP_head h c hc

theorem subLowerUpper_noLead {l : List Char} (h : noLeadWsP l) :
    noLeadWsP (subLowerUpper l) := by
  refine noLeadWsP_of_head _ ?_
  intro c hc
  rw [subLowerUpper_head] at hc
  exact noLeadWsP_head h c hc

theorem subWsRuns_id : ∀ l : List Char, onlyPlainSp l → noPair badWW l → subWsRuns l = l := by
  intro l
  induction l using subWsRuns.induct with
  | case1 => intro _ _; rfl
  | case2 c hc =>
    intro h1 _
    rw [subWsRuns_one, if_pos hc, h1 c (List.mem_cons_self _ _) hc]
  | case3 c hc =>
    intro _ _
    rw [subWsRuns_one, if_neg hc]
  | case4 a b rest ha hb ih =>
    intro h1 h2
    exfalso
    have hp : badWW a b = false := h2.1
    rw [badWW, ha, hb] at hp
    exact Bool.noConfusion hp
  | case5 a b rest ha hb ih =>
    intro h1 h2
    rw [subWsRuns_two, if_pos ha, if_neg hb,
        ih (onlyPlainSp_cons h1) (noPair_cons h2),
        h1 a (List.mem_cons_self _ _) ha]
  | case6 a b rest ha ih =>
    intro h1 h2
    rw [subWsRuns_two, if_neg ha, ih (onlyPlainSp_cons h1) (noPair_cons h2)]

theorem dropLeadWs_id {l : List Char} (h : noLeadWsP l) : dropLeadWs l = l := by
  cases l with
  | nil => rfl
  | cons c cs =>
    have hc : isPySpace c = false := h
    exact List.dropWhile_cons_of_neg (by simp [hc])

theorem dropTrailWs_id : ∀ l : List Char, noTrailWsP l → dropTrailWs l = l := by
  intro l
  induction l with
  | nil => intro _; rfl
  | cons c cs ih =>
    intro h
    cases cs with
    | nil =>
      have hc : isPySpace c = false := h
      rw [dropTrailWs, dropTrailWs]
      simp [hc]
    | cons b rest =>
      have h1 : noTrailWsP (b :: rest) := h
      rw [dropTrailWs, ih h1]

theorem pyStrip_id {l : List Char} (h1 : noLeadWsP l) (h2 : noTrailWsP l) :
    pyStrip l = l := by
  rw [pyStrip, dropLeadWs_id h1, dropTrailWs_id l h2]

/-! ### Equivalence of the regex scans with the spec's adjacent-pair insertions -/

theorem specEnsurePU_nil : specEnsurePU [] = [] := by
  rw [specEnsurePU]

theorem specEnsurePU_single (c : Char) : specEnsurePU [c] = [c] := by
  rw [specEnsurePU]

theorem specEnsurePU_cons_ins {a b : Char} {rest : List Char}
    (h : (isSentEnd a && isUpperAZ b) = true) :
    specEnsurePU (a :: b :: rest) = a :: ' ' :: specEnsurePU (b :: rest) := by
  rw [specEnsurePU.eq_def]
  simp [h]

theorem specEnsurePU_cons_skip {a b : Char} {rest : List Char}
    (h : (isSentEnd a && isUpperAZ b) = false) :
    specEnsurePU (a :: b :: rest) = a :: specEnsurePU (b :: rest) := by
  rw [specEnsurePU.eq_def]
  simp [h]

theorem specEnsurePU_cons_nopunct {b : Char} {rest : List Char}
    (h : isSentEnd b = false) :
    specEnsurePU (b :: rest) = b :: specEnsurePU rest := by
  cases rest with
  | nil => rw [specEnsurePU_single, specEnsurePU_nil]
  | cons c cr => rw [specEnsurePU_cons_skip (by rw [h]; simp)]

theorem specInsertLU_nil : specInsertLU [] = [] := by
  rw [specInsertLU]

theorem specInsertLU_single (c : Char) : specInsertLU [c] = [c] := by
  rw [specInsertLU]

theorem specInsertLU_cons_ins {a b : Char} {rest : List Char}
    (h : (isLowerAZ a && isUpperAZ b) = true) :
    specInsertLU (a :: b :: rest) = a :: ' ' :: specInsertLU (b :: rest) := by
  rw [specInsertLU.eq_def]
  simp [h]

theorem specInsertLU_cons_skip {a b : Char} {rest : List Char}
    (h : (isLowerAZ a && isUpperAZ b) = false) :
    specInsertLU (a :: b :: rest) = a :: specInsertLU (b :: rest) := by
  rw [specInsertLU.eq_def]
  simp [h]

theorem specInsertLU_cons_upper {b : Char} {rest : List Char}
    (h : isUpperAZ b = true) :
    specInsertLU (b :: rest) = b :: specInsertLU rest := by
  cases rest with
  | nil => rw [specInsertLU_single, specInsertLU_nil]
  | cons c cr => rw [specInsertLU_cons_skip (by rw [upperAZ_not_lower b h]; simp)]

theorem subLowerUpper_eq_spec : ∀ l : List Char, subLowerUpper l = specInsertLU l := by
  intro l
  induction l using subLowerUpper.induct with
  | case1 => rw [subLowerUpper_nil, specInsertLU_nil]
  | case2 x => rw [subLowerUpper_single, specInsertLU_single]
  | case3 a b rest h ih =>
    rcases Bool.and_eq_true_iff.mp h with ⟨_, hb⟩
    rw [subLowerUpper_cons_ins h, specInsertLU_cons_ins h,
        specInsertLU_cons_upper hb, ih]
  | case4 a b rest h ih =>
    rw [subLowerUpper_cons_skip (eq_false_of_ne_true h),
        specInsertLU_cons_skip (eq_false_of_ne_true h), ih]

theorem subPunctUpper_eq_spec : ∀ l : List Char, onlyPlainSp l → noPair badWW l →
    subPunctUpper l = specEnsurePU l := by
  intro l
  induction l using subPunctUpper_induction with
  | case1 => intro _ _; rw [subPunctUpper_nil, specEnsurePU_nil]
  | case2 a cs ha d ds hm hd ih =>
    intro h1 h2
    rw [subPunctUpper_cons_ins ha hm hd]
    cases cs with
    | nil => simp at hm
    | cons x xs =>
      by_cases hx : isPySpace x = true
      · have hxsp : x = ' ' := h1 x (List.mem_cons_of_mem _ (List.mem_cons_self _ _)) hx
        subst hxsp
        rw [List.dropWhile_cons_of_pos hx] at hm
        cases xs with
        | nil => simp at hm
        | cons y ys =>
          by_cases hy : isPySpace y = true
          · exfalso
            have hpair : badWW ' ' y = false := h2.2.1
            rw [badWW, hy, show isPySpace ' ' = true from by decide] at hpair
            simp at hpair
          · rw [List.dropWhile_cons_of_neg (by simpa using hy)] at hm
            injection hm with hm1 hm2
            subst hm1
            subst hm2
            rw [specEnsurePU_cons_skip (by rw [show isUpperAZ ' ' = false from by decide]; simp),
                specEnsurePU_cons_skip (by rw [show isSentEnd ' ' = false from by decide]; simp),
                specEnsurePU_cons_nopunct (upperAZ_not_sentEnd y hd)]
            rw [ih (fun c hc hw => h1 c (List.mem_cons_of_mem _
                  (List.mem_cons_of_mem _ (List.mem_cons_of_mem _ hc))) hw)
                (noPair_cons (noPair_cons (noPair_cons h2)))]
      · rw [List.dropWhile_cons_of_neg (by simpa using hx)] at hm
        injection hm with hm1 hm2
        subst hm1
        subst hm2
        rw [specEnsurePU_cons_ins (by rw [ha, hd]; rfl),
            specEnsurePU_cons_nopunct (upperAZ_not_sentEnd x hd)]
        rw [ih (onlyPlainSp_cons (onlyPlainSp_cons h1))
            (noPair_cons (noPair_cons h2))]
  | case3 a cs ha d ds hm hd ih =>
    intro h1 h2
    rw [subPunctUpper_cons_skip1 ha hm (eq_false_of_ne_true hd)]
    cases cs with
    | nil => simp at hm
    | cons x xs =>
      have hxu : isUpperAZ x = false := by
        by_cases hxx : isPySpace x = true
        · exact space_not_upper x hxx
        · rw [List.dropWhile_cons_of_neg (by simpa using hxx)] at hm
          injection hm with hm1 _
          subst hm1
          exact eq_false_of_ne_true hd
      rw [specEnsurePU_cons_skip (by rw [hxu]; simp)]
      rw [ih (onlyPlainSp_cons h1) (noPair_cons h2)]
  | case4 a cs ha hm ih =>
    intro h1 h2
    rw [subPunctUpper_cons_skip2 ha hm]
    cases cs with
    | nil => rw [subPunctUpper_nil, specEnsurePU_single]
    | cons x xs =>
      have hx : isPySpace x = true := by
        by_cases hxx : isPySpace x = true
        · exact hxx
        · rw [List.dropWhile_cons_of_neg (by simpa using hxx)] at hm
          simp at hm
      rw [specEnsurePU_cons_skip (by rw [space_not_upper x hx]; simp)]
      rw [ih (onlyPlainSp_cons h1) (noPair_cons h2)]
  | case5 a cs ha ih =>
    intro h1 h2
    rw [subPunctUpper_cons_skip3 (eq_false_of_ne_true ha)]
    rw [specEnsurePU_cons_nopunct (eq_false_of_ne_true ha)]
    rw [ih (onlyPlainSp_cons h1) (noPair_cons h2)]

/-! ### Canonical form of cleaned text, and the C4/C5 claims -/

structure CleanCanon (l : List Char) : Prop where
  plain : onlyPlainSp l
  ww : noPair badWW l
  lead : noLeadWsP l
  trail : noTrailWsP l
  pu : noPair badPU l
  lu : noPair badLU l

theorem cleanPipeline_canon (t : List Char) :
    CleanCanon (subLowerUpper (subPunctUpper (pyStrip (subWsRuns t)))) := by
  have h1p := pyStrip_onlyPlain (subWsRuns_onlyPlain t)
  have h1w := pyStrip_noPair (subWsRuns_noPairWW t)
  have h1l := pyStrip_noLead (subWsRuns t)
  have h1t := pyStrip_noTrail (subWsRuns t)
  have hwwL : ∀ x, isSentEnd x = true → badWW x ' ' = false := by
    intro x hx
    rw [badWW, sentEnd_not_space x hx]
    simp
  have hwwR : ∀ x, isUpperAZ x = true → badWW ' ' x = false := by
    intro x hx
    rw [badWW, upperAZ_not_space x hx]
    simp
  have h2p := subPunctUpper_onlyPlain h1p
  have h2w := subPunctUpper_noPair hwwL hwwR _ h1w
  have h2l := subPunctUpper_noLead h1l
  have h2t := subPunctUpper_noTrail _ h1t
  have h2pu := subPunctUpper_noPairPU (pyStrip (subWsRuns t))
  have hwwL2 : ∀ x, isLowerAZ x = true → badWW x ' ' = false := by
    intro x hx
    rw [badWW, charClass_contra space_not_lower hx]
    simp
  have hpuL : ∀ x, isLowerAZ x = true → badPU x ' ' = false := by
    intro x _
    rw [badPU, show isUpperAZ ' ' = false from by decide]
    simp
  have hpuR : ∀ x, isUpperAZ x = true → badPU ' ' x = false := by
    intro x _
    rw [badPU, show isSentEnd ' ' = false from by decide]
    simp
  exact
    { plain := subLowerUpper_onlyPlain h2p
      ww := subLowerUpper_noPair hwwL2 hwwR _ h2w
      lead := subLowerUpper_noLead h2l
      trail := subLowerUpper_noTrail _ h2t
      pu := subLowerUpper_noPair hpuL hpuR _ h2pu
      lu := subLowerUpper_noPairLU _ }

theorem cleanPipeline_id {l : List Char} (h : CleanCanon l) :
    subLowerUpper (subPunctUpper (pyStrip (subWsRuns l))) = l := by
  rw [subWsRuns_id l h.plain h.ww, pyStrip_id h.lead h.trail,
      subPunctUpper_id l h.pu h.ww h.plain, subLowerUpper_id l h.lu]

/-- C4: the text-cleaning pass `_clean_text` is a pure deterministic function
that returns the empty string on empty input and otherwise collapses every
whitespace run to a single space, trims the ends, ensures a single space
after `.`/`!`/`?` immediately followed by an uppercase letter, and inserts a
single space at every lowercase-to-uppercase letter boundary — i.e. it equals
the pass described by the specification, word for word. -/
theorem c4_clean_text_spec :
    cleanText "" = "" ∧ ∀ s : String, cleanText s = specCleanText s := by
  constructor
  · rw [cleanText, if_pos rfl]
  intro s
  by_cases hs : s = ""
  · rw [cleanText, specCleanText, if_pos hs, if_pos hs]
  · rw [cleanText, specCleanText, if_neg hs, if_neg hs]
    have h1p := pyStrip_onlyPlain (subWsRuns_onlyPlain s.data)
    have h1w := pyStrip_noPair (subWsRuns_noPairWW s.data)
    rw [subLowerUpper_eq_spec, subPunctUpper_eq_spec _ h1p h1w]

/-- C5: the text-cleaning pass is idempotent, and it sends empty input to
the empty string. -/
theorem c5_clean_idempotent :
    cleanText "" = "" ∧ ∀ s : String, cleanText (cleanText s) = cleanText s := by
  constructor
  · rw [cleanText, if_pos rfl]
  intro s
  by_cases hs : s = ""
  · have h1 : cleanText s = "" := by rw [cleanText, if_pos hs]
    rw [h1, cleanText, if_pos rfl]
  · have h1 : cleanText s =
        String.mk (subLowerUpper (subPunctUpper (pyStrip (subWsRuns s.data)))) := by
      rw [cleanText, if_neg hs]
    rw [h1]
    have hc := cleanPipeline_canon s.data
    by_cases hm : String.mk (subLowerUpper (subPunctUpper (pyStrip (subWsRuns s.data)))) = ""
    · rw [hm, cleanText, if_pos rfl]
    · rw [cleanText, if_neg hm]
      exact congrArg String.mk (cleanPipeline_id hc)

/-! ### Literal search (`re.finditer(re.escape(query), text)`)

`re.escape` makes the pattern a literal string, so `finditer` performs a
leftmost, non-overlapping scan for literal occurrences.  The character
comparison is either strict equality or, under `re.IGNORECASE`, equality of
the (ASCII) lowercased characters. -/

/-- Does the pattern `q` match literally at the start of `t`, comparing
characters with `eq`? -/
def litMatch (eq : Char → Char → Bool) : List Char → List Char → Bool
  | [], _ => true
  | _ :: _, [] => false
  | q :: qs, t :: ts => eq q t && litMatch eq qs ts

/-- Strict character comparison (case-sensitive search). -/
def eqStrict (a b : Char) : Bool := a == b

/-- ASCII lowercasing, as applied per character by `re.IGNORECASE`. -/
def toLowerPy (c : Char) : Char := if 'A' ≤ c && c ≤ 'Z' then Char.ofNat (c.toNat + 32) else c

/-- Case-insensitive character comparison. -/
def eqNoCase (a b : Char) : Bool := toLowerPy a == toLowerPy b

/-- The non-overlapping leftmost scan of `finditer`, with a fuel argument
dominating the length of the text (every step consumes at least one
character).  `i` is the absolute position of the head of the remaining text;
a match at position `i` is recorded and the scan resumes after it. -/
def scanPosGo (eq : Char → Char → Bool) (q : List Char) : Nat → List Char → Nat → List Nat
  | 0, _, _ => []
  | _ + 1, [], _ => []
  | f + 1, t :: ts, i =>
    if litMatch eq q (t :: ts) then
      i :: scanPosGo eq q f (List.drop (q.length - 1) ts) (i + q.length)
    else scanPosGo eq q f ts (i + 1)

/-- Start positions of the non-overlapping literal matches of `q` in `text`,
offset by `i`. -/
def scanPos (eq : Char → Char → Bool) (q text : List Char) (i : Nat) : List Nat :=
  scanPosGo eq q text.length text i

/-- All matches of `finditer`: an empty pattern matches (with zero width) at
every position `0..len`, a non-empty pattern by the non-overlapping scan. -/
def findIter (eq : Char → Char → Bool) (q text : List Char) : List Nat :=
  if q.isEmpty then List.range (text.length + 1) else scanPos eq q text 0

theorem scanPosGo_nil (eq : Char → Char → Bool) (q : List Char) :
    ∀ f i, scanPosGo eq q f [] i = []
  | 0, _ => rfl
  | _ + 1, _ => rfl

theorem scanPosGo_succ (eq : Char → Char → Bool) (q : List Char) (f : Nat)
    (t : Char) (ts : List Char) (i : Nat) :
    scanPosGo eq q (f + 1) (t :: ts) i =
      if litMatch eq q (t :: ts) then
        i :: scanPosGo eq q f (List.drop (q.length - 1) ts) (i + q.length)
      else scanPosGo eq q f ts (i + 1) := rfl

theorem scanPosGo_congr (eq : Char → Char → Bool) (q : List Char) :
    ∀ f1 : Nat, ∀ l : List Char, ∀ f2 i : Nat,
    l.length ≤ f1 → l.length ≤ f2 → scanPosGo eq q f1 l i = scanPosGo eq q f2 l i := by
  intro f1
  induction f1 with
  | zero =>
    intro l f2 i h1 _
    have hl : l = [] := List.length_eq_zero.mp (Nat.le_zero.mp h1)
    subst hl
    rw [scanPosGo_nil, scanPosGo_nil]
  | succ f ih =>
    intro l f2 i h1 h2
    cases l with
    | nil => rw [scanPosGo_nil, scanPosGo_nil]
    | cons t ts =>
      cases f2 with
      | zero => simp at h2
      | succ g =>
        simp only [List.length_cons] at h1 h2
        rw [scanPosGo_succ, scanPosGo_succ]
        by_cases hm : litMatch eq q (t :: ts) = true
        · rw [if_pos hm, if_pos hm]
          have hlen : (List.drop (q.length - 1) ts).length ≤ ts.length := by
            rw [List.length_drop]
            omega
          rw [ih (List.drop (q.length - 1) ts) g (i + q.length) (by omega) (by omega)]
        · rw [if_neg hm, if_neg hm, ih ts g (i + 1) (by omega) (by omega)]

theorem scanPos_nil (eq : Char → Char → Bool) (q : List Char) (i : Nat) :
    scanPos eq q [] i = [] := rfl

theorem scanPos_cons_hit {eq : Char → Char → Bool} {q : List Char} {t : Char}
    {ts : List Char} (i : Nat) (hm : litMatch eq q (t :: ts) = true) :
    scanPos eq q (t :: ts) i =
      i :: scanPos eq q (List.drop (q.length - 1) ts) (i + q.length) := by
  show scanPosGo eq q (ts.length + 1) (t :: ts) i = _
  rw [scanPosGo_succ, if_pos hm]
  rw [scanPosGo_congr eq q ts.length (List.drop (q.length - 1) ts) _ _
      (by rw [List.length_drop]; omega) (le_refl _)]
  rfl

theorem scanPos_cons_miss {eq : Char → Char → Bool} {q : List Char} {t : Char}
    {ts : List Char} (i : Nat) (hm : litMatch eq q (t :: ts) = false) :
    scanPos eq q (t :: ts) i = scanPos eq q ts (i + 1) := by
  show scanPosGo eq q (ts.length + 1) (t :: ts) i = _
  rw [scanPosGo_succ, if_neg (by simp [hm])]
  rfl

/-- Induction following the structure of the non-overlapping scan.  The
measure decreases in both branches for every pattern, the empty one
included. -/
theorem scanPos_induction (q : List Char) (P : List Char → Prop)
    (case1 : P [])
    (case2 : ∀ t ts, P ts → P (List.drop (q.length - 1) ts) → P (t :: ts)) :
    ∀ l, P l := by
  have H : ∀ n, ∀ l : List Char, l.length ≤ n → P l := by
    intro n
    induction n with
    | zero =>
      intro l hl
      have : l = [] := List.length_eq_zero.mp (Nat.le_zero.mp hl)
      exact this ▸ case1
    | succ n ih =>
      intro l hl
      cases l with
      | nil => exact case1
      | cons t ts =>
        simp only [List.length_cons] at hl
        refine case2 t ts (ih ts (by omega)) (ih _ ?_)
        rw [List.length_drop]
        omega
  exact fun l => H l.length l (le_refl _)

/-! ### Counting matches: the greedy scan is maximal, and monotone in `eq` -/

/-- Number of matches found by the greedy scan. -/
def scanCnt (eq : Char → Char → Bool) (q l : List Char) : Nat :=
  (scanPos eq q l 0).length

theorem scanPos_length_indep (eq : Char → Char → Bool) (q : List Char) :
    ∀ l : List Char, ∀ i j : Nat, (scanPos eq q l i).length = (scanPos eq q l j).length := by
  intro l
  induction l using scanPos_induction q with
  | case1 => intro i j; rw [scanPos_nil, scanPos_nil]
  | case2 t ts ih1 ih2 =>
    intro i j
    by_cases hm : litMatch eq q (t :: ts) = true
    · rw [scanPos_cons_hit i hm, scanPos_cons_hit j hm]
      simp only [List.length_cons]
      rw [ih2 (i + q.length) (j + q.length)]
    · rw [scanPos_cons_miss i (eq_false_of_ne_true hm),
          scanPos_cons_miss j (eq_false_of_ne_true hm)]
      exact ih1 (i + 1) (j + 1)

theorem scanCnt_nil (eq : Char → Char → Bool) (q : List Char) : scanCnt eq q [] = 0 := rfl

theorem scanCnt_cons_hit {eq : Char → Char → Bool} {q : List Char} {t : Char}
    {ts : List Char} (hm : litMatch eq q (t :: ts) = true) :
    scanCnt eq q (t :: ts) = scanCnt eq q (List.drop (q.length - 1) ts) + 1 := by
  rw [scanCnt, scanPos_cons_hit 0 hm]
  simp only [List.length_cons]
  rw [scanCnt, scanPos_length_indep eq q _ (0 + q.length) 0]

theorem scanCnt_cons_miss {eq : Char → Char → Bool} {q : List Char} {t : Char}
    {ts : List Char} (hm : litMatch eq q (t :: ts) = false) :
    scanCnt eq q (t :: ts) = scanCnt eq q ts := by
  rw [scanCnt, scanPos_cons_miss 0 hm, scanCnt, scanPos_length_indep eq q ts 1 0]

/-- The maximal number of non-overlapping matches, by optimal substructure,
again with a fuel argument dominating the length. -/
def maxCntGo (eq : Char → Char → Bool) (q : List Char) : Nat → List Char → Nat
  | 0, _ => 0
  | _ + 1, [] => 0
  | f + 1, t :: ts =>
    max (maxCntGo eq q f ts)
      (if litMatch eq q (t :: ts) then maxCntGo eq q f (List.drop (q.length - 1) ts) + 1
       else 0)

def maxCnt (eq : Char → Char → Bool) (q l : List Char) : Nat := maxCntGo eq q l.length l

theorem maxCntGo_nil (eq : Char → Char → Bool) (q : List Char) :
    ∀ f, maxCntGo eq q f [] = 0
  | 0 => rfl
  | _ + 1 => rfl

theorem maxCntGo_succ (eq : Char → Char → Bool) (q : List Char) (f : Nat)
    (t : Char) (ts : List Char) :
    maxCntGo eq q (f + 1) (t :: ts) =
      max (maxCntGo eq q f ts)
        (if litMatch eq q (t :: ts) then maxCntGo eq q f (List.drop (q.length - 1) ts) + 1
         else 0) := rfl

theorem maxCntGo_congr (eq : Char → Char → Bool) (q : List Char) :
    ∀ f1 : Nat, ∀ l : List Char, ∀ f2 : Nat,
    l.length ≤ f1 → l.length ≤ f2 → maxCntGo eq q f1 l = maxCntGo eq q f2 l := by
  intro f1
  induction f1 with
  | zero =>
    intro l f2 h1 _
    have hl : l = [] := List.length_eq_zero.mp (Nat.le_zero.mp h1)
    subst hl
    rw [maxCntGo_nil, maxCntGo_nil]
  | succ f ih =>
    intro l f2 h1 h2
    cases l with
    | nil => rw [maxCntGo_nil, maxCntGo_nil]
    | cons t ts =>
      cases f2 with
      | zero => simp at h2
      | succ g =>
        simp only [List.length_cons] at h1 h2
        rw [maxCntGo_succ, maxCntGo_succ]
        rw [ih ts g (by omega) (by omega)]
        by_cases hm : litMatch eq q (t :: ts) = true
        · rw [if_pos hm, if_pos hm,
              ih (List.drop (q.length - 1) ts) g (by rw [List.length_drop]; omega)
                (by rw [List.length_drop]; omega)]
        · rw [if_neg hm, if_neg hm]

theorem maxCnt_nil (eq : Char → Char → Bool) (q : List Char) : maxCnt eq q [] = 0 := rfl

theorem maxCnt_cons (eq : Char → Char → Bool) (q : List Char) (t : Char) (ts : List Char) :
    maxCnt eq q (t :: ts) =
      max (maxCnt eq q ts)
        (if litMatch eq q (t :: ts) then maxCnt eq q (List.drop (q.length - 1) ts) + 1
         else 0) := by
  show maxCntGo eq q (ts.length + 1) (t :: ts) = _
  rw [maxCntGo_succ]
  rw [maxCntGo_congr eq q ts.length (List.drop (q.length - 1) ts) _
      (by rw [List.length_drop]; omega) (le_refl _)]
  rfl

theorem maxCnt_tail_le (eq : Char → Char → Bool) (q : List Char) (t : Char) (ts : List Char) :
    maxCnt eq q ts ≤ maxCnt eq q (t :: ts) := by
  rw [maxCnt_cons]
  exact le_max_left _ _

theorem maxCnt_drop_le (eq : Char → Char → Bool) (q : List Char) :
    ∀ l : List Char, ∀ j : Nat, maxCnt eq q (List.drop j l) ≤ maxCnt eq q l := by
  intro l
  induction l with
  | nil => intro j; simp
  | cons t ts ih =>
    intro j
    cases j with
    | zero => exact le_refl _
    | succ j =>
      rw [List.drop_succ_cons]
      exact le_trans (ih j) (maxCnt_tail_le eq q t ts)

theorem maxCnt_le_drop_add_one (eq : Char → Char → Bool) (q : List Char) (hq : q ≠ []) :
    ∀ l : List Char, maxCnt eq q l ≤ maxCnt eq q (List.drop q.length l) + 1 := by
  have hq1 : 1 ≤ q.length := by
    cases q with
    | nil => exact absurd rfl hq
    | cons _ _ => simp
  intro l
  induction l using scanPos_induction q with
  | case1 => simp [maxCnt_nil]
  | case2 t ts ih1 ih2 =>
    rw [maxCnt_cons]
    have hdrop : List.drop q.length (t :: ts) = List.drop (q.length - 1) ts := by
      conv_lhs => rw [show q.length = (q.length - 1) + 1 from by omega]
      rw [List.drop_succ_cons]
    rw [hdrop]
    refine max_le ?_ ?_
    · refine le_trans ih1 ?_
      have hsub : List.drop q.length ts = List.drop 1 (List.drop (q.length - 1) ts) := by
        rw [List.drop_drop]
        congr 1
        omega
      have := maxCnt_drop_le eq q (List.drop (q.length - 1) ts) 1
      rw [← hsub] at this
      omega
    · by_cases hm : litMatch eq q (t :: ts) = true
      · rw [if_pos hm]
      · rw [if_neg hm]
        omega

theorem scanCnt_eq_maxCnt (eq : Char → Char → Bool) (q : List Char) (hq : q ≠ []) :
    ∀ l : List Char, scanCnt eq q l = maxCnt eq q l := by
  intro l
  induction l using scanPos_induction q with
  | case1 => rw [scanCnt_nil, maxCnt_nil]
  | case2 t ts ih1 ih2 =>
    by_cases hm : litMatch eq q (t :: ts) = true
    · rw [scanCnt_cons_hit hm, maxCnt_cons, if_pos hm, ih2]
      have h1 := maxCnt_le_drop_add_one eq q hq ts
      have h2 : List.drop q.length ts = List.drop 1 (List.drop (q.length - 1) ts) := by
        rw [List.drop_drop]
        congr 1
        cases q with
        | nil => exact absurd rfl hq
        | cons _ _ => simp
      rw [h2] at h1
      have h3 := maxCnt_drop_le eq q (List.drop (q.length - 1) ts) 1
      have : maxCnt eq q ts ≤ maxCnt eq q (List.drop (q.length - 1) ts) + 1 := by omega
      omega
    · rw [scanCnt_cons_miss (eq_false_of_ne_true hm), maxCnt_cons,
          if_neg hm, ih1]
      simp

theorem litMatch_mono {eq1 eq2 : Char → Char → Bool}
    (himp : ∀ a b, eq1 a b = true → eq2 a b = true) :
    ∀ q t : List Char, litMatch eq1 q t = true → litMatch eq2 q t = true := by
  intro q
  induction q with
  | nil => intro t _; rfl
  | cons c qs ih =>
    intro t h
    cases t with
    | nil => exact absurd h (by rw [litMatch]; simp)
    | cons x ts =>
      rw [litMatch, Bool.and_eq_true] at h ⊢
      exact ⟨himp c x h.1, ih ts h.2⟩

theorem maxCnt_mono {eq1 eq2 : Char → Char → Bool}
    (himp : ∀ a b, eq1 a b = true → eq2 a b = true) (q : List Char) :
    ∀ l : List Char, maxCnt eq1 q l ≤ maxCnt eq2 q l := by
  intro l
  induction l using scanPos_induction q with
  | case1 => rw [maxCnt_nil, maxCnt_nil]
  | case2 t ts ih1 ih2 =>
    rw [maxCnt_cons, maxCnt_cons]
    refine max_le_max ih1 ?_
    by_cases hm : litMatch eq1 q (t :: ts) = true
    · rw [if_pos hm, if_pos (litMatch_mono himp q (t :: ts) hm)]
      omega
    · rw [if_neg hm]
      simp

theorem eqStrict_imp_eqNoCase : ∀ a b : Char, eqStrict a b = true → eqNoCase a b = true := by
  intro a b h
  rw [eqStrict] at h
  rw [eqNoCase, show a = b from by exact beq_iff_eq.mp h]
  simp

/-- The case-insensitive greedy scan never finds fewer matches than the
case-sensitive one. -/
theorem scanCnt_nocase_ge (q l : List Char) (hq : q ≠ []) :
    scanCnt eqStrict q l ≤ scanCnt eqNoCase q l := by
  rw [scanCnt_eq_maxCnt eqStrict q hq l, scanCnt_eq_maxCnt eqNoCase q hq l]
  exact maxCnt_mono eqStrict_imp_eqNoCase q l

/-! ### The PDF extraction facade (`PDFToTextParser`)

The external engines (pypdf, pdfplumber, PyMuPDF) are abstracted by a
document value: whether opening/reading the document raises, the outcome of
each page's text extraction (the engine returns a value — possibly `None`
for pdfplumber — or raises), and the engine-reported metadata mapping
(`None` models a falsy `pdf_reader.metadata`; metadata values may be `None`).
A filesystem path is abstracted by whether the file exists, its lowercased
suffix, and the document behind it. -/

inductive PyErr where
  | fileNotFound
  | valueError
  | engineError
deriving DecidableEq, Repr

inductive PageOutcome where
  | ret (v : Option String)
  | exc
deriving DecidableEq, Repr

structure PDFDoc where
  openOk : Bool
  pages : List PageOutcome
  meta : Option (List (String × Option String))
deriving DecidableEq, Repr

structure PdfFile where
  fileExists : Bool
  suffixLower : String
  doc : PDFDoc
deriving DecidableEq, Repr

inductive TextBackend where
  | pypdf
  | pdfplumber
  | pymupdf
deriving DecidableEq, Repr

/-- Truthiness of a Python `Optional[str]`: `None` and `""` are falsy. -/
def pyTruthy (t : Option String) : Bool :=
  match t with
  | none => false
  | some s => !(s == "")

/-- `_clean_text` as called on a possibly-`None` engine value: the
`if not text` guard sends both `None` and `""` to `""`. -/
def cleanTextPy (t : Option String) : String :=
  match t with
  | none => ""
  | some s => cleanText s

/-- `f"--- Page {page_num + 1} ---\n{text}"`. -/
def pageHeaderBlock (pageNum : Nat) (text : String) : String :=
  "--- Page " ++ toString (pageNum + 1) ++ " ---\n" ++ text

/-- Resolution of the page selector, as done identically in each delegate:
`range(total_pages)` when absent, else `[p for p in pages if 0 <= p < total]`
(Python page numbers may be negative, hence `Int`). -/
def resolvePages (total : Nat) (pages : Option (List Int)) : List Int :=
  match pages with
  | none => (List.range total).map (fun n => (n : Int))
  | some ps => ps.filter (fun p => 0 ≤ p && p < (total : Int))

/-- One iteration of the page loop of `_extract_with_pypdf` (and of
`_extract_with_pymupdf`, whose body is identical): `some block` if the loop
appends a block for this page, `none` if the page is skipped.  A page whose
extraction raises is skipped (`except: continue`).  With cleaning enabled the
cleaned text is tested by `text.strip()`; with cleaning disabled a `None`
engine value makes `text.strip()` raise `AttributeError`, which the same
`except` turns into a skip. -/
def pypdfPageBlock (pages : List PageOutcome) (clean : Bool) (p : Int) : Option String :=
  match pages.getD p.toNat PageOutcome.exc with
  | PageOutcome.exc => none
  | PageOutcome.ret t =>
    if clean then
      let s := cleanTextPy t
      if pyStripStr s == "" then none else some (pageHeaderBlock p.toNat s)
    else
      match t with
      | none => none
      | some s => if pyStripStr s == "" then none else some (pageHeaderBlock p.toNat s)

/-- One iteration of the page loop of `_extract_with_pdfplumber`: here the
cleaning branch is `self._clean_text(text) if text else ""` and the test is
`if text and text.strip()`, so a `None` value is skipped without raising. -/
def pdfplumberPageBlock (pages : List PageOutcome) (clean : Bool) (p : Int) : Option String :=
  match pages.getD p.toNat PageOutcome.exc with
  | PageOutcome.exc => none
  | PageOutcome.ret t =>
    let text : Option String :=
      if clean then some (if pyTruthy t then cleanText (t.getD "") else "") else t
    match text with
    | none => none
    | some s =>
      if s == "" then none
      else if pyStripStr s == "" then none
      else some (pageHeaderBlock p.toNat s)

/-- The `for page_num in pages_to_process` loop, appending one block per
non-skipped page to the accumulator `text_content`. -/
def extractLoop (step : Int → Option String) : List Int → List String → List String
  | [], acc => acc
  | p :: ps, acc =>
    match step p with
    | some block => extractLoop step ps (acc ++ [block])
    | none => extractLoop step ps acc

/-- `PDFToTextParser._extract_with_pypdf`. -/
def extract_with_pypdf (doc : PDFDoc) (pages : Option (List Int)) (clean : Bool) :
    Except PyErr String :=
  if doc.openOk then
    Except.ok (String.intercalate "\n\n"
      (extractLoop (pypdfPageBlock doc.pages clean) (resolvePages doc.pages.length pages) []))
  else Except.error PyErr.engineError

/-- `PDFToTextParser._extract_with_pdfplumber`. -/
def extract_with_pdfplumber (doc : PDFDoc) (pages : Option (List Int)) (clean : Bool) :
    Except PyErr String :=
  if doc.openOk then
    Except.ok (String.intercalate "\n\n"
      (extractLoop (pdfplumberPageBlock doc.pages clean) (resolvePages doc.pages.length pages) []))
  else Except.error PyErr.engineError

/-- `PDFToTextParser._extract_with_pymupdf`: identical page loop to the
pypdf delegate (`page.get_text()` in place of `page.extract_text()`). -/
def extract_with_pymupdf (doc : PDFDoc) (pages : Option (List Int)) (clean : Bool) :
    Except PyErr String :=
  if doc.openOk then
    Except.ok (String.intercalate "\n\n"
      (extractLoop (pypdfPageBlock doc.pages clean) (resolvePages doc.pages.length pages) []))
  else Except.error PyErr.engineError

/-- `PDFToTextParser.extract_text_from_file`: existence check, `.pdf` suffix
check, dispatch on the (validated) backend; the surrounding
`try/except ...: logger.error(...); raise` re-raises unchanged. -/
def extract_text_from_file (b : TextBackend) (f : PdfFile) (pages : Option (List Int))
    (clean : Bool) : Except PyErr String :=
  if !f.fileExists then Except.error PyErr.fileNotFound
  else if !(f.suffixLower == ".pdf") then Except.error PyErr.valueError
  else
    match b with
    | TextBackend.pypdf => extract_with_pypdf f.doc pages clean
    | TextBackend.pdfplumber => extract_with_pdfplumber f.doc pages clean
    | TextBackend.pymupdf => extract_with_pymupdf f.doc pages clean

/-! ### Per-page extraction (`extract_text_by_page`) and search -/

/-- Value stored for one page by `_extract_by_page_pypdf` (and by
`_extract_by_page_pymupdf`, whose body is identical): a raising page stores
`""`; otherwise the (optionally cleaned) engine value is stored as is. -/
def pypdfPageVal (clean : Bool) (po : PageOutcome) : Option String :=
  match po with
  | PageOutcome.exc => some ""
  | PageOutcome.ret t => if clean then some (cleanTextPy t) else t

/-- Value stored for one page by `_extract_by_page_pdfplumber`: the cleaning
branch is `self._clean_text(text) if text else ""` and the stored value is
`text or ""`, so the stored value is always an actual string. -/
def pdfplumberPageVal (clean : Bool) (po : PageOutcome) : Option String :=
  match po with
  | PageOutcome.exc => some ""
  | PageOutcome.ret t =>
    let text : Option String :=
      if clean then some (if pyTruthy t then cleanText (t.getD "") else "") else t
    some (if pyTruthy text then text.getD "" else "")

/-- The `for page_num, page in enumerate(...)` loop filling `page_texts`. -/
def byPageLoop (val : PageOutcome → Option String) :
    List PageOutcome → Nat → List (Nat × Option String)
  | [], _ => []
  | po :: rest, i => (i, val po) :: byPageLoop val rest (i + 1)

/-- `PDFToTextParser._extract_by_page_pypdf`. -/
def extract_by_page_pypdf (doc : PDFDoc) (clean : Bool) :
    Except PyErr (List (Nat × Option String)) :=
  if doc.openOk then Except.ok (byPageLoop (pypdfPageVal clean) doc.pages 0)
  else Except.error PyErr.engineError

/-- `PDFToTextParser._extract_by_page_pdfplumber`. -/
def extract_by_page_pdfplumber (doc : PDFDoc) (clean : Bool) :
    Except PyErr (List (Nat × Option String)) :=
  if doc.openOk then Except.ok (byPageLoop (pdfplumberPageVal clean) doc.pages 0)
  else Except.error PyErr.engineError

/-- `PDFToTextParser._extract_by_page_pymupdf`: identical loop to the pypdf
delegate. -/
def extract_by_page_pymupdf (doc : PDFDoc) (clean : Bool) :
    Except PyErr (List (Nat × Option String)) :=
  if doc.openOk then Except.ok (byPageLoop (pypdfPageVal clean) doc.pages 0)
  else Except.error PyErr.engineError

/-- `PDFToTextParser.extract_text_by_page`: existence check only — there is
no suffix check here — then dispatch; the surrounding `try/except` logs and
re-raises unchanged. -/
def extract_text_by_page (b : TextBackend) (f : PdfFile) (clean : Bool) :
    Except PyErr (List (Nat × Option String)) :=
  if !f.fileExists then Except.error PyErr.fileNotFound
  else
    match b with
    | TextBackend.pypdf => extract_by_page_pypdf f.doc clean
    | TextBackend.pdfplumber => extract_by_page_pdfplumber f.doc clean
    | TextBackend.pymupdf => extract_by_page_pymupdf f.doc clean

/-- One search match: page number (one-indexed for display), zero-indexed
character offset of the match start, the (stripped) context window and the
matched substring — the record built inside `search_text`. -/
structure MatchRec where
  page : Nat
  position : Nat
  context : String
  matched : String
deriving DecidableEq, Repr

/-- The record appended for a match at position `p` of a page text `t`:
`context = text[max(0, start - 50) : min(len(text), end + 50)].strip()` and
`match.group()` is the text slice of the match itself (Python's saturating
`Nat` subtraction realizes the `max(0, ...)`). -/
def matchRecordOf (i p qlen : Nat) (t : List Char) : MatchRec :=
  { page := i + 1
    position := p
    context := pyStripStr (String.mk
      ((t.drop (p - 50)).take (min t.length (p + qlen + 50) - (p - 50))))
    matched := String.mk ((t.drop p).take qlen) }

/-- All records of one page, in `finditer` order. -/
def pageMatches (eq : Char → Char → Bool) (q : List Char) (i : Nat) (t : List Char) :
    List MatchRec :=
  (findIter eq q t).map (fun p => matchRecordOf i p q.length t)

/-- The nested `for page_num, text in page_texts.items(): if not text:
continue; for match in pattern.finditer(text): matches.append(...)` loops. -/
def searchLoop (eq : Char → Char → Bool) (q : List Char) :
    List (Nat × Option String) → List MatchRec → List MatchRec
  | [], acc => acc
  | (i, v) :: rest, acc =>
    if pyTruthy v then searchLoop eq q rest (acc ++ pageMatches eq q i (v.getD "").data)
    else searchLoop eq q rest acc

/-- `PDFToTextParser.search_text`: per-page extraction (with default
options, hence cleaning enabled), then the literal scan with the chosen
case-sensitivity over every non-falsy page text. -/
def search_text (b : TextBackend) (f : PdfFile) (query : String) (caseSensitive : Bool) :
    Except PyErr (List MatchRec) :=
  match extract_text_by_page b f true with
  | Except.error e => Except.error e
  | Except.ok pageTexts =>
    Except.ok (searchLoop (if caseSensitive then eqStrict else eqNoCase)
      query.data pageTexts [])

/-! ### Metadata (`get_pdf_metadata`) -/

/-- `key.lstrip("/")`: every leading slash is removed. -/
def lstripSlash (s : String) : String :=
  String.mk (s.data.dropWhile (fun c => c == '/'))

/-- `str(value) if value else ""`: a falsy value (`None` or `""`) becomes
`""`, and `str` of a string is itself. -/
def pyStrOrEmpty (v : Option String) : String :=
  match v with
  | none => ""
  | some s => s

/-- Python dict assignment `d[k] = v`: replace in place if the key exists
(keeping insertion order), else append. -/
def dictSet : List (String × Option String) → String → Option String →
    List (String × Option String)
  | [], k, v => [(k, v)]
  | (k', v') :: rest, k, v =>
    if k' == k then (k', v) :: rest else (k', v') :: dictSet rest k v

/-- The pypdf metadata loop: each key is stored with its leading slashes
stripped. -/
def pypdfMetaLoop : List (String × Option String) → List (String × Option String) →
    List (String × Option String)
  | [], acc => acc
  | (k, v) :: rest, acc => pypdfMetaLoop rest (dictSet acc (lstripSlash k) (some (pyStrOrEmpty v)))

/-- The pdfplumber metadata loop: keys are stored unchanged. -/
def plumberMetaLoop : List (String × Option String) → List (String × Option String) →
    List (String × Option String)
  | [], acc => acc
  | (k, v) :: rest, acc => plumberMetaLoop rest (dictSet acc k (some (pyStrOrEmpty v)))

/-- The mapping accumulated by the metadata loop of `get_pdf_metadata`
before `metadata["pages"]` is set.  A falsy engine mapping — `None` or the
empty dict — leaves the loop unentered; for the empty dict this coincides
with folding over no entries.  The PyMuPDF branch replaces the mapping
wholesale with the engine's own dict, values untouched. -/
def metaEntries (b : TextBackend) (doc : PDFDoc) : List (String × Option String) :=
  match b with
  | TextBackend.pypdf =>
    match doc.meta with
    | none => []
    | some m => pypdfMetaLoop m []
  | TextBackend.pdfplumber =>
    match doc.meta with
    | none => []
    | some m => plumberMetaLoop m []
  | TextBackend.pymupdf => doc.meta.getD []

/-- The mapping returned on the success path: the loop entries, then
`metadata["pages"] = str(<page count>)`. -/
def metaSuccess (b : TextBackend) (doc : PDFDoc) : List (String × Option String) :=
  dictSet (metaEntries b doc) "pages" (some (toString doc.pages.length))

/-- `PDFToTextParser.get_pdf_metadata`: existence check, then the whole
engine interaction sits in a `try/except Exception` that logs a warning and
falls through to `return metadata` — so an engine failure never raises but
returns whatever the mapping held when the exception hit.  Two engine
failure sites are modelled, matching where the Python calls into the engine
outside the loop: opening/reading the document (tracked, as for every other
operation, by `PDFDoc.openOk`), which leaves the mapping still empty; and
the lazy page-count read (`len(pdf_reader.pages)` / `len(pdf.pages)` /
`page_count`, the `pageCountRaises` argument), which in these engines
resolves the page tree lazily and can raise after the metadata loop has
already filled the mapping — returning the accumulated entries without a
`pages` key.  The loop body itself works on already-materialized entries in
this model; a failure while materializing them would likewise return the
prefix accumulated so far. -/
def get_pdf_metadata (b : TextBackend) (f : PdfFile) (pageCountRaises : Bool) :
    Except PyErr (List (String × Option String)) :=
  if !f.fileExists then Except.error PyErr.fileNotFound
  else if !f.doc.openOk then Except.ok []
  else if pageCountRaises then Except.ok (metaEntries b f.doc)
  else Except.ok (metaSuccess b f.doc)

/-! ### The HTML-to-PDF conversion facade (`HTMLToPDFConverter`)

The rendering engines are abstracted by an outcome value: whether the
delegate's engine interaction raises, and (for xhtml2pdf) the error count
reported by `pisa_status.err`.  The string handed to the engine by the
xhtml2pdf delegate is modelled exactly, since two claims are about it. -/

inductive ConvBackend where
  | weasyprint
  | xhtml2pdf
  | reportlab
deriving DecidableEq, Repr

structure ConvOutcome where
  engineRaises : Bool
  pisaErr : Nat
deriving DecidableEq, Repr

/-- The conversion options relevant to the xhtml2pdf delegate: the content
of the CSS file when `css_file` is supplied (file reading is abstracted),
the `css_string` option, and the four margins with their `options.get(...,
'0.75in')` defaults. -/
structure HtmlOptions where
  cssFileContent : Option String
  cssString : Option String
  marginTop : Option String
  marginRight : Option String
  marginBottom : Option String
  marginLeft : Option String
deriving DecidableEq, Repr

/-- CSS injection of `_convert_with_xhtml2pdf`: a supplied CSS file (or,
failing that, a CSS string) is prepended as an inline `<style>` block. -/
def xhtml2pdfAddCss (html : String) (o : HtmlOptions) : String :=
  match o.cssFileContent with
  | some css => "<style>" ++ css ++ "</style>" ++ html
  | none =>
    match o.cssString with
    | some css => "<style>" ++ css ++ "</style>" ++ html
    | none => html

/-- The full-document test of `_convert_with_xhtml2pdf`:
`html_content.strip().startswith("<!DOCTYPE")` or `("<html")`
(`startswith` is literal character-prefix comparison). -/
def startsWithDocTag (s : String) : Bool :=
  litMatch eqStrict "<!DOCTYPE".data (pyStripStr s).data ||
    litMatch eqStrict "<html".data (pyStripStr s).data

/-- The synthesized wrapping document of `_convert_with_xhtml2pdf`, exactly
as in the f-string template (the doubled braces of the template are literal
braces). -/
def xhtml2pdfWrap (o : HtmlOptions) (content : String) : String :=
  "<!DOCTYPE html>\n<html>\n<head>\n    <meta charset=\"UTF-8\">\n    <style>\n        body \x7b font-family: Arial, sans-serif; margin: 40px; \x7d\n        @page \x7b margin: "
    ++ o.marginTop.getD "0.75in" ++ " " ++ o.marginRight.getD "0.75in" ++ " "
    ++ o.marginBottom.getD "0.75in" ++ " " ++ o.marginLeft.getD "0.75in"
    ++ "; \x7d\n    </style>\n</head>\n<body>\n" ++ content ++ "\n</body>\n</html>"

/-- The HTML string finally handed to `pisa.CreatePDF`: CSS is prepended
first, and the wrapping applies when the (already CSS-prefixed) content does
not start with a doctype or html root tag. -/
def xhtml2pdfFinalHtml (html : String) (o : HtmlOptions) : String :=
  let withCss := xhtml2pdfAddCss html o
  if !(startsWithDocTag withCss) then xhtml2pdfWrap o withCss else withCss

/-- `HTMLToPDFConverter._convert_with_xhtml2pdf`: the whole body is inside
`try/except`, so an engine raise prints and returns `False`; otherwise the
result is `pisa_status.err == 0`. -/
def convert_with_xhtml2pdf (html : String) (o : HtmlOptions) (run : ConvOutcome) :
    Except PyErr Bool :=
  if run.engineRaises then Except.ok false
  else Except.ok (run.pisaErr == 0)

/-- `HTMLToPDFConverter._convert_with_weasyprint`: body inside `try/except`,
an engine raise prints and returns `False`, otherwise `True`. -/
def convert_with_weasyprint (run : ConvOutcome) : Except PyErr Bool :=
  if run.engineRaises then Except.ok false else Except.ok true

/-- `HTMLToPDFConverter._convert_with_reportlab`: same shape as weasyprint. -/
def convert_with_reportlab (run : ConvOutcome) : Except PyErr Bool :=
  if run.engineRaises then Except.ok false else Except.ok true

/-- `HTMLToPDFConverter.convert_html_string`: dispatch on the (validated)
backend inside `try/except Exception: print(...); return False`. -/
def convert_html_string (b : ConvBackend) (html : String) (o : HtmlOptions)
    (run : ConvOutcome) : Except PyErr Bool :=
  match
    (match b with
     | ConvBackend.weasyprint => convert_with_weasyprint run
     | ConvBackend.xhtml2pdf => convert_with_xhtml2pdf html o run
     | ConvBackend.reportlab => convert_with_reportlab run) with
  | Except.ok r => Except.ok r
  | Except.error _ => Except.ok false

/-! ### Loop characterizations -/

theorem extractLoop_eq (step : Int → Option String) :
    ∀ ps acc, extractLoop step ps acc = acc ++ ps.filterMap step := by
  intro ps
  induction ps with
  | nil => intro acc; rw [extractLoop, List.filterMap_nil, List.append_nil]
  | cons p ps ih =>
    intro acc
    cases hs : step p with
    | some block =>
      rw [show extractLoop step (p :: ps) acc = extractLoop step ps (acc ++ [block]) from
          by rw [extractLoop, hs]]
      rw [ih, List.filterMap_cons_some hs, List.append_assoc]
      rfl
    | none =>
      rw [show extractLoop step (p :: ps) acc = extractLoop step ps acc from
          by rw [extractLoop, hs]]
      rw [ih, List.filterMap_cons_none hs]

theorem byPageLoop_map_fst (val : PageOutcome → Option String) :
    ∀ pages : List PageOutcome, ∀ i : Nat,
    (byPageLoop val pages i).map Prod.fst = List.range' i pages.length := by
  intro pages
  induction pages with
  | nil => intro i; rw [byPageLoop]; rfl
  | cons po rest ih =>
    intro i
    rw [byPageLoop, List.map_cons, ih (i + 1), List.length_cons, List.range'_succ]

theorem byPageLoop_lookup (val : PageOutcome → Option String) :
    ∀ pages : List PageOutcome, ∀ i j : Nat, j < pages.length →
    (byPageLoop val pages i).lookup (i + j) = some (val (pages.getD j PageOutcome.exc)) := by
  intro pages
  induction pages with
  | nil => intro i j hj; simp at hj
  | cons po rest ih =>
    intro i j hj
    cases j with
    | zero =>
      rw [byPageLoop]
      simp [List.lookup]
    | succ j =>
      rw [byPageLoop]
      have hne : ((i + (j + 1) == i) : Bool) = false := by
        simp only [beq_eq_false_iff_ne, ne_eq]
        omega
      rw [List.lookup]
      simp only [hne]
      have := ih (i + 1) j (by simpa using hj)
      rw [show i + 1 + j = i + (j + 1) from by omega] at this
      rw [this]
      rfl

theorem byPageLoop_eq_map (val : PageOutcome → Option String) :
    ∀ pages : List PageOutcome, ∀ i : Nat,
    byPageLoop val pages i =
      (List.range pages.length).map (fun j => (i + j, val (pages.getD j PageOutcome.exc))) := by
  intro pages
  induction pages with
  | nil => intro i; rw [byPageLoop]; rfl
  | cons po rest ih =>
    intro i
    rw [byPageLoop, ih (i + 1), List.length_cons, List.range_succ_eq_map]
    rw [List.map_cons, List.map_map]
    refine congrArg₂ _ (by simp) ?_
    refine List.map_congr_left ?_
    intro j _
    simp only [Function.comp_apply, List.getD_cons_succ]
    refine congrArg₂ _ (by omega) rfl

theorem searchLoop_eq (eq : Char → Char → Bool) (q : List Char) :
    ∀ items acc, searchLoop eq q items acc =
      acc ++ (items.map (fun iv =>
        if pyTruthy iv.2 then pageMatches eq q iv.1 (iv.2.getD "").data else [])).flatten := by
  intro items
  induction items with
  | nil => intro acc; rw [searchLoop]; simp
  | cons iv rest ih =>
    intro acc
    obtain ⟨i, v⟩ := iv
    by_cases hv : pyTruthy v = true
    · rw [show searchLoop eq q ((i, v) :: rest) acc =
          searchLoop eq q rest (acc ++ pageMatches eq q i (v.getD "").data) from
          by rw [searchLoop, if_pos hv]]
      rw [ih, List.map_cons, List.flatten_cons]
      simp [hv, List.append_assoc]
    · rw [show searchLoop eq q ((i, v) :: rest) acc = searchLoop eq q rest acc from
          by rw [searchLoop, if_neg hv]]
      rw [ih, List.map_cons, List.flatten_cons]
      simp [hv]

theorem dictSet_lookup_self : ∀ d : List (String × Option String), ∀ k v,
    (dictSet d k v).lookup k = some v := by
  intro d
  induction d with
  | nil => intro k v; simp [dictSet, List.lookup]
  | cons kv rest ih =>
    intro k v
    obtain ⟨k', v'⟩ := kv
    rw [dictSet]
    by_cases hk : (k' == k) = true
    · rw [if_pos hk]
      have : (k == k') = true := by
        rw [beq_iff_eq] at hk ⊢
        exact hk.symm
      simp [List.lookup, this]
    · rw [if_neg hk]
      have : (k == k') = false := by
        simp only [beq_eq_false_iff_ne, ne_eq] at hk ⊢
        simp only [beq_iff_eq] at hk
        exact fun h => hk h.symm
      simp only [List.lookup, this]
      exact ih k v

theorem dictSet_mem : ∀ d : List (String × Option String), ∀ k v kv,
    kv ∈ dictSet d k v → kv ∈ d ∨ kv.fst = k := by
  intro d
  induction d with
  | nil =>
    intro k v kv hkv
    simp only [dictSet, List.mem_singleton] at hkv
    subst hkv
    exact Or.inr rfl
  | cons kv' rest ih =>
    intro k v kv hkv
    obtain ⟨k', v'⟩ := kv'
    rw [dictSet] at hkv
    by_cases hk : (k' == k) = true
    · rw [if_pos hk] at hkv
      rcases List.mem_cons.mp hkv with rfl | hkv'
      · exact Or.inr (beq_iff_eq.mp hk)
      · exact Or.inl (List.mem_cons_of_mem _ hkv')
    · rw [if_neg hk] at hkv
      rcases List.mem_cons.mp hkv with rfl | hkv'
      · exact Or.inl (List.mem_cons_self _ _)
      · rcases ih k v kv hkv' with h | h
        · exact Or.inl (List.mem_cons_of_mem _ h)
        · exact Or.inr h

theorem pypdfMetaLoop_mem : ∀ m acc kv, kv ∈ pypdfMetaLoop m acc →
    kv ∈ acc ∨ ∃ kv0 ∈ m, kv.fst = lstripSlash kv0.fst := by
  intro m
  induction m with
  | nil => intro acc kv hkv; exact Or.inl hkv
  | cons e rest ih =>
    intro acc kv hkv
    obtain ⟨k, v⟩ := e
    rw [pypdfMetaLoop] at hkv
    rcases ih _ kv hkv with h | ⟨kv0, hkv0, heq⟩
    · rcases dictSet_mem _ _ _ _ h with h' | h'
      · exact Or.inl h'
      · exact Or.inr ⟨(k, v), List.mem_cons_self _ _, h'⟩
    · exact Or.inr ⟨kv0, List.mem_cons_of_mem _ hkv0, heq⟩

/-! ### Dispatch helpers and shared characterizations -/

/-- Which per-page block function the full-text extraction of a backend
uses. -/
def extractPageBlock (b : TextBackend) (pages : List PageOutcome) (clean : Bool) :
    Int → Option String :=
  match b with
  | TextBackend.pypdf => pypdfPageBlock pages clean
  | TextBackend.pdfplumber => pdfplumberPageBlock pages clean
  | TextBackend.pymupdf => pypdfPageBlock pages clean

/-- Which per-page stored value the by-page extraction of a backend uses. -/
def byPageVal (b : TextBackend) (clean : Bool) : PageOutcome → Option String :=
  match b with
  | TextBackend.pypdf => pypdfPageVal clean
  | TextBackend.pdfplumber => pdfplumberPageVal clean
  | TextBackend.pymupdf => pypdfPageVal clean

/-- The by-page delegate a backend dispatches to. -/
def byPageDelegate (b : TextBackend) (doc : PDFDoc) (clean : Bool) :
    Except PyErr (List (Nat × Option String)) :=
  match b with
  | TextBackend.pypdf => extract_by_page_pypdf doc clean
  | TextBackend.pdfplumber => extract_by_page_pdfplumber doc clean
  | TextBackend.pymupdf => extract_by_page_pymupdf doc clean

theorem extract_text_eq_filterMap (b : TextBackend) (f : PdfFile)
    (pages : Option (List Int)) (clean : Bool) (h1 : f.fileExists = true)
    (h2 : f.suffixLower = ".pdf") (h3 : f.doc.openOk = true) :
    extract_text_from_file b f pages clean =
      Except.ok (String.intercalate "\n\n"
        ((resolvePages f.doc.pages.length pages).filterMap
          (extractPageBlock b f.doc.pages clean))) := by
  rw [extract_text_from_file.eq_def, if_neg (by simp [h1]), if_neg (by simp [h2])]
  cases b with
  | pypdf =>
    rw [extract_with_pypdf, if_pos h3, extractLoop_eq]
    rfl
  | pdfplumber =>
    rw [extract_with_pdfplumber, if_pos h3, extractLoop_eq]
    rfl
  | pymupdf =>
    rw [extract_with_pymupdf, if_pos h3, extractLoop_eq]
    rfl

theorem extract_by_page_dispatch (b : TextBackend) (f : PdfFile) (clean : Bool)
    (h1 : f.fileExists = true) :
    extract_text_by_page b f clean = byPageDelegate b f.doc clean := by
  rw [extract_text_by_page.eq_def, if_neg (by simp [h1])]
  cases b <;> rfl

theorem extract_by_page_ok (b : TextBackend) (f : PdfFile) (clean : Bool)
    (h1 : f.fileExists = true) (h3 : f.doc.openOk = true) :
    extract_text_by_page b f clean =
      Except.ok (byPageLoop (byPageVal b clean) f.doc.pages 0) := by
  rw [extract_by_page_dispatch b f clean h1]
  cases b with
  | pypdf => rw [byPageDelegate, extract_by_page_pypdf, if_pos h3]; rfl
  | pdfplumber => rw [byPageDelegate, extract_by_page_pdfplumber, if_pos h3]; rfl
  | pymupdf => rw [byPageDelegate, extract_by_page_pymupdf, if_pos h3]; rfl

/-- The records of `search_text`, described declaratively page by page. -/
def searchSpec (b : TextBackend) (doc : PDFDoc) (q : List Char)
    (eq : Char → Char → Bool) : List MatchRec :=
  ((List.range doc.pages.length).map (fun i =>
    let v := byPageVal b true (doc.pages.getD i PageOutcome.exc)
    if pyTruthy v then pageMatches eq q i (v.getD "").data else [])).flatten

theorem search_text_eq_spec (b : TextBackend) (f : PdfFile) (query : String)
    (cs : Bool) (h1 : f.fileExists = true) (h3 : f.doc.openOk = true) :
    search_text b f query cs =
      Except.ok (searchSpec b f.doc query.data (if cs then eqStrict else eqNoCase)) := by
  rw [search_text, extract_by_page_ok b f true h1 h3]
  show Except.ok (searchLoop (if cs = true then eqStrict else eqNoCase) query.data
      (byPageLoop (byPageVal b true) f.doc.pages 0) []) = _
  rw [searchLoop_eq, List.nil_append, byPageLoop_eq_map, List.map_map, searchSpec]
  refine congrArg Except.ok (congrArg List.flatten ?_)
  refine List.map_congr_left ?_
  intro j _
  simp only [Function.comp_apply, Nat.zero_add]

theorem findIter_length_mono (q t : List Char) :
    (findIter eqStrict q t).length ≤ (findIter eqNoCase q t).length := by
  rw [findIter, findIter]
  by_cases hq : q.isEmpty = true
  · rw [if_pos hq, if_pos hq]
  · rw [if_neg hq, if_neg hq]
    have hqne : q ≠ [] := by
      intro hc
      rw [hc] at hq
      exact hq rfl
    exact scanCnt_nocase_ge q t hqne

theorem searchSpec_count_mono (b : TextBackend) (doc : PDFDoc) (q : List Char) :
    (searchSpec b doc q eqStrict).length ≤ (searchSpec b doc q eqNoCase).length := by
  rw [searchSpec, searchSpec, List.length_flatten, List.length_flatten]
  rw [List.map_map, List.map_map]
  refine List.sum_le_sum ?_
  intro i _
  simp only [Function.comp_apply]
  by_cases hv : pyTruthy (byPageVal b true (doc.pages.getD i PageOutcome.exc)) = true
  · rw [if_pos hv, if_pos hv]
    rw [pageMatches, pageMatches, List.length_map, List.length_map]
    exact findIter_length_mono q _
  · rw [if_neg hv, if_neg hv]

/-! ### Sample inputs used by witnesses and counterexamples -/

def sampleDoc : PDFDoc :=
  { openOk := true
    pages := [PageOutcome.ret (some "alpha"), PageOutcome.ret (some "beta")]
    meta := some [("/Title", some "T"), ("/Author", none)] }

def sampleFile : PdfFile :=
  { fileExists := true, suffixLower := ".pdf", doc := sampleDoc }

def brokenFile : PdfFile :=
  { fileExists := true, suffixLower := ".pdf"
    doc := { openOk := false, pages := [], meta := none } }

def notPdfFile : PdfFile :=
  { fileExists := true, suffixLower := ".txt", doc := sampleDoc }

def excFile : PdfFile :=
  { fileExists := true, suffixLower := ".pdf"
    doc := { openOk := true
             pages := [PageOutcome.ret (some "alpha"), PageOutcome.exc]
             meta := none } }

def noOptions : HtmlOptions :=
  { cssFileContent := none, cssString := none
    marginTop := none, marginRight := none, marginBottom := none, marginLeft := none }

/-! ### The claims -/

/-- C1 counterexample: on an existing `.pdf` file whose document-level open
raises inside the engine, `extract_text_from_file` logs and re-raises — the
error propagates to the caller instead of becoming an empty or partial
result, contradicting the claim as stated. -/
theorem c1_counterexample :
    extract_text_from_file TextBackend.pypdf brokenFile none true =
      Except.error PyErr.engineError := rfl

/-- C1 (amended): an exception thrown by a conversion engine is caught and
`convert_html_string` returns `false` rather than propagating; for
extraction, per-page engine exceptions are contained and the operation still
returns a (possibly partial) result, but a document-level engine exception
(raised while opening/reading the PDF) is logged and re-raised to the
caller. -/
theorem c1_engine_errors :
    (∀ (b : ConvBackend) (html : String) (o : HtmlOptions) (run : ConvOutcome),
      ∃ r : Bool, convert_html_string b html o run = Except.ok r ∧
        (run.engineRaises = true → r = false)) ∧
    (∀ (b : TextBackend) (f : PdfFile) (pages : Option (List Int)) (clean : Bool),
      f.fileExists = true → f.suffixLower = ".pdf" → f.doc.openOk = true →
      ∃ s : String, extract_text_from_file b f pages clean = Except.ok s) ∧
    (∀ (b : TextBackend) (f : PdfFile) (pages : Option (List Int)) (clean : Bool),
      f.fileExists = true → f.suffixLower = ".pdf" → f.doc.openOk = false →
      extract_text_from_file b f pages clean = Except.error PyErr.engineError) := by
  refine ⟨?_, ?_, ?_⟩
  · intro b html o run
    by_cases hr : run.engineRaises = true
    · refine ⟨false, ?_, fun _ => rfl⟩
      cases b with
      | weasyprint =>
        show (match convert_with_weasyprint run with
          | Except.ok r => Except.ok r
          | Except.error _ => Except.ok false) = Except.ok false
        rw [convert_with_weasyprint, if_pos hr]
      | xhtml2pdf =>
        show (match convert_with_xhtml2pdf html o run with
          | Except.ok r => Except.ok r
          | Except.error _ => Except.ok false) = Except.ok false
        rw [convert_with_xhtml2pdf, if_pos hr]
      | reportlab =>
        show (match convert_with_reportlab run with
          | Except.ok r => Except.ok r
          | Except.error _ => Except.ok false) = Except.ok false
        rw [convert_with_reportlab, if_pos hr]
    · cases b with
      | weasyprint =>
        refine ⟨true, ?_, fun h => absurd h hr⟩
        show (match convert_with_weasyprint run with
          | Except.ok r => Except.ok r
          | Except.error _ => Except.ok false) = Except.ok true
        rw [convert_with_weasyprint, if_neg hr]
      | xhtml2pdf =>
        refine ⟨run.pisaErr == 0, ?_, fun h => absurd h hr⟩
        show (match convert_with_xhtml2pdf html o run with
          | Except.ok r => Except.ok r
          | Except.error _ => Except.ok false) = Except.ok (run.pisaErr == 0)
        rw [convert_with_xhtml2pdf, if_neg hr]
      | reportlab =>
        refine ⟨true, ?_, fun h => absurd h hr⟩
        show (match convert_with_reportlab run with
          | Except.ok r => Except.ok r
          | Except.error _ => Except.ok false) = Except.ok true
        rw [convert_with_reportlab, if_neg hr]
  · intro b f pages clean h1 h2 h3
    exact ⟨_, extract_text_eq_filterMap b f pages clean h1 h2 h3⟩
  · intro b f pages clean h1 h2 h3
    rw [extract_text_from_file.eq_def, if_neg (by simp [h1]), if_neg (by simp [h2])]
    cases b with
    | pypdf => rw [extract_with_pypdf, if_neg (by simp [h3])]
    | pdfplumber => rw [extract_with_pdfplumber, if_neg (by simp [h3])]
    | pymupdf => rw [extract_with_pymupdf, if_neg (by simp [h3])]

theorem c1_witness :
    convert_html_string ConvBackend.weasyprint "x" noOptions ⟨true, 0⟩ = Except.ok false ∧
    (extract_text_from_file TextBackend.pypdf excFile none true).isOk = true ∧
    extract_text_from_file TextBackend.pypdf brokenFile none true =
      Except.error PyErr.engineError := by
  refine ⟨?_, ?_, ?_⟩
  · obtain ⟨r, hr, himp⟩ := c1_engine_errors.1 ConvBackend.weasyprint "x" noOptions ⟨true, 0⟩
    rw [himp rfl] at hr
    exact hr
  · obtain ⟨s, hs⟩ := c1_engine_errors.2.1 TextBackend.pypdf excFile none true rfl rfl rfl
    rw [hs]
    rfl
  · exact c1_engine_errors.2.2 TextBackend.pypdf brokenFile none true rfl rfl rfl

/-- C2 counterexample: with page selector `[1, 0]` on a two-page document,
`extract_text` emits the blocks in selector order — page 2 before page 1 —
not in ascending order of the selected pages as the claim states. -/
theorem c2_counterexample :
    extract_text_from_file TextBackend.pypdf sampleFile (some [1, 0]) true =
      Except.ok "--- Page 2 ---\nbeta\n\n--- Page 1 ---\nalpha" ∧
    "--- Page 2 ---\nbeta\n\n--- Page 1 ---\nalpha" ≠
      "--- Page 1 ---\nalpha\n\n--- Page 2 ---\nbeta" :=
  ⟨rfl, by decide⟩

/-- C2 (amended): for every existing `.pdf` file (readable by the engine)
and every page selector, `extract_text` silently drops indices outside
`[0, total_pages)`, yields the empty string when the selection is empty, and
otherwise returns exactly the `--- Page N ---`-headed blocks of the selected
pages whose (cleaned, unless cleaning is disabled) text is non-blank, joined
by a blank line, in the order the indices appear in the selector (ascending
when the selector is absent). -/
theorem c2_extract_text_blocks (b : TextBackend) (f : PdfFile)
    (pages : Option (List Int)) (clean : Bool) (h1 : f.fileExists = true)
    (h2 : f.suffixLower = ".pdf") (h3 : f.doc.openOk = true) :
    extract_text_from_file b f pages clean =
      Except.ok (String.intercalate "\n\n"
        ((resolvePages f.doc.pages.length pages).filterMap
          (extractPageBlock b f.doc.pages clean))) :=
  extract_text_eq_filterMap b f pages clean h1 h2 h3

theorem c2_witness :
    extract_text_from_file TextBackend.pypdf sampleFile (some [5, 0, -1]) true =
      Except.ok (String.intercalate "\n\n"
        ((resolvePages sampleFile.doc.pages.length (some [5, 0, -1])).filterMap
          (extractPageBlock TextBackend.pypdf sampleFile.doc.pages true))) :=
  c2_extract_text_blocks TextBackend.pypdf sampleFile (some [5, 0, -1]) true rfl rfl rfl

/-- C3: for every existing PDF file (readable by the engine),
`extract_text_by_page` returns one entry per page with keys exactly
`0 .. total_pages - 1`, and a page whose extraction raises is mapped to the
empty string rather than omitted. -/
theorem c3_by_page_shape (b : TextBackend) (f : PdfFile) (clean : Bool)
    (h1 : f.fileExists = true) (h3 : f.doc.openOk = true) :
    extract_text_by_page b f clean =
      Except.ok (byPageLoop (byPageVal b clean) f.doc.pages 0) ∧
    (byPageLoop (byPageVal b clean) f.doc.pages 0).map Prod.fst =
      List.range f.doc.pages.length ∧
    ∀ j, j < f.doc.pages.length →
      f.doc.pages.getD j PageOutcome.exc = PageOutcome.exc →
      (byPageLoop (byPageVal b clean) f.doc.pages 0).lookup j = some (some "") := by
  refine ⟨extract_by_page_ok b f clean h1 h3, ?_, ?_⟩
  · rw [byPageLoop_map_fst]
    exact (List.range_eq_range' _).symm
  · intro j hj hexc
    have hl := byPageLoop_lookup (byPageVal b clean) f.doc.pages 0 j hj
    rw [Nat.zero_add] at hl
    rw [hl, hexc]
    have hv : byPageVal b clean PageOutcome.exc = some "" := by
      cases b <;> cases clean <;> rfl
    rw [hv]

theorem c3_witness :
    extract_text_by_page TextBackend.pypdf excFile true =
      Except.ok (byPageLoop (byPageVal TextBackend.pypdf true) excFile.doc.pages 0) ∧
    (byPageLoop (byPageVal TextBackend.pypdf true) excFile.doc.pages 0).lookup 1 =
      some (some "") := by
  obtain ⟨h1, _, h3⟩ := c3_by_page_shape TextBackend.pypdf excFile true rfl rfl
  exact ⟨h1, h3 1 (by decide) rfl⟩

def c6Text : String := "ab " ++ String.mk (List.replicate 49 'c') ++ "q"

def c6File : PdfFile :=
  { fileExists := true, suffixLower := ".pdf"
    doc := { openOk := true, pages := [PageOutcome.ret (some c6Text)], meta := none } }

/-- C6 counterexample: the page text is `"ab "` followed by 49 `c`s and `q`;
the only match of `"q"` starts at offset 52, so the 50-character left window
begins exactly at the space at offset 2.  The stored context is the
`.strip()`ped window (50 characters), not the clipped window itself (51
characters starting with the space) as the claim states. -/
theorem c6_counterexample :
    search_text TextBackend.pypdf c6File "q" true =
      Except.ok [⟨1, 52, String.mk (List.replicate 49 'c') ++ "q", "q"⟩] ∧
    (String.mk (List.replicate 49 'c') ++ "q" : String) ≠
      " " ++ String.mk (List.replicate 49 'c') ++ "q" :=
  ⟨rfl, by decide⟩

/-- C6 (amended): for every existing PDF file (readable by the engine) and
query, `search_text` records exactly one record per occurrence found by the
non-overlapping left-to-right literal scan over each non-falsy page's
cleaned text, holding the one-indexed page, the zero-indexed offset, the
context window of up to 50 characters on each side clipped to the text's
bounds and then stripped of leading/trailing whitespace, and the exact
matched substring in the case it was found. -/
theorem c6_search_records (b : TextBackend) (f : PdfFile) (query : String)
    (cs : Bool) (h1 : f.fileExists = true) (h3 : f.doc.openOk = true) :
    search_text b f query cs =
      Except.ok (searchSpec b f.doc query.data (if cs then eqStrict else eqNoCase)) :=
  search_text_eq_spec b f query cs h1 h3

theorem c6_witness :
    search_text TextBackend.pypdf excFile "alpha" false =
      Except.ok (searchSpec TextBackend.pypdf excFile.doc "alpha".data eqNoCase) :=
  c6_search_records TextBackend.pypdf excFile "alpha" false rfl rfl

def c7File : PdfFile :=
  { fileExists := true, suffixLower := ".pdf"
    doc := { openOk := true, pages := [PageOutcome.ret (some "Aaa")], meta := none } }

/-- C7 counterexample: searching `"aa"` in a page whose cleaned text is
`"Aaa"`, the case-sensitive scan matches at offset 1, but the
case-insensitive scan consumes `"Aa"` at offset 0 and then finds nothing —
so the case-sensitive match record is not contained in the case-insensitive
result and the superset claim fails (the counts are still equal here). -/
theorem c7_counterexample :
    search_text TextBackend.pypdf c7File "aa" true =
      Except.ok [⟨1, 1, "Aaa", "aa"⟩] ∧
    search_text TextBackend.pypdf c7File "aa" false =
      Except.ok [⟨1, 0, "Aaa", "Aa"⟩] ∧
    (⟨1, 1, "Aaa", "aa"⟩ : MatchRec) ∉ [(⟨1, 0, "Aaa", "Aa"⟩ : MatchRec)] :=
  ⟨rfl, rfl, by decide⟩

/-- C7 (amended): for every existing PDF file (readable by the engine) and
query, the case-insensitive match count of `search_text` is at least the
case-sensitive match count (the record-level superset property fails, see
the counterexample). -/
theorem c7_search_count (b : TextBackend) (f : PdfFile) (query : String)
    (h1 : f.fileExists = true) (h3 : f.doc.openOk = true) :
    search_text b f query true = Except.ok (searchSpec b f.doc query.data eqStrict) ∧
    search_text b f query false = Except.ok (searchSpec b f.doc query.data eqNoCase) ∧
    (searchSpec b f.doc query.data eqStrict).length ≤
      (searchSpec b f.doc query.data eqNoCase).length :=
  ⟨search_text_eq_spec b f query true h1 h3,
   search_text_eq_spec b f query false h1 h3,
   searchSpec_count_mono b f.doc query.data⟩

theorem c7_witness :
    search_text TextBackend.pypdf sampleFile "a" true =
      Except.ok (searchSpec TextBackend.pypdf sampleFile.doc "a".data eqStrict) ∧
    (searchSpec TextBackend.pypdf sampleFile.doc "a".data eqStrict).length ≤
      (searchSpec TextBackend.pypdf sampleFile.doc "a".data eqNoCase).length := by
  obtain ⟨ha, _, hc⟩ := c7_search_count TextBackend.pypdf sampleFile "a" rfl rfl
  exact ⟨ha, hc⟩

/-- C8 counterexample: the lazy page-count read raises after the metadata
loop has filled the mapping; the `except` handler logs a warning and falls
through to `return metadata`, returning the accumulated entries — a
non-empty mapping without a `pages` key, not the empty mapping the claim
states. -/
theorem c8_counterexample :
    get_pdf_metadata TextBackend.pypdf sampleFile true =
      Except.ok [("Title", some "T"), ("Author", some "")] ∧
    ([("Title", some "T"), ("Author", some "")] : List (String × Option String)) ≠ [] ∧
    List.lookup "pages"
      ([("Title", some "T"), ("Author", some "")] : List (String × Option String)) = none :=
  ⟨rfl, by decide, rfl⟩

/-- C8 (amended): for every existing PDF file, `get_pdf_metadata` never
raises on an engine-level failure: on success its result always contains a
`pages` key holding the total page count as a string (with the pypdf
backend stripping the leading slashes from engine key names), and on
extraction failure it logs a warning and returns the mapping accumulated
before the failure — empty when opening the document fails, and the engine
metadata entries without a `pages` key when the page-count read fails after
the metadata loop. -/
theorem c8_metadata (b : TextBackend) (f : PdfFile) (pcRaises : Bool)
    (h1 : f.fileExists = true) :
    (f.doc.openOk = false → get_pdf_metadata b f pcRaises = Except.ok []) ∧
    (f.doc.openOk = true → pcRaises = true →
      get_pdf_metadata b f pcRaises = Except.ok (metaEntries b f.doc) ∧
      (b = TextBackend.pypdf →
        ∀ kv ∈ metaEntries b f.doc,
          ∃ kv0 ∈ f.doc.meta.getD [], kv.fst = lstripSlash kv0.fst)) ∧
    (f.doc.openOk = true → pcRaises = false →
      get_pdf_metadata b f pcRaises = Except.ok (metaSuccess b f.doc) ∧
      (metaSuccess b f.doc).lookup "pages" =
        some (some (toString f.doc.pages.length)) ∧
      (b = TextBackend.pypdf →
        ∀ kv ∈ metaSuccess b f.doc, kv.fst = "pages" ∨
          ∃ kv0 ∈ f.doc.meta.getD [], kv.fst = lstripSlash kv0.fst)) := by
  have hentries : b = TextBackend.pypdf → ∀ kv ∈ metaEntries b f.doc,
      ∃ kv0 ∈ f.doc.meta.getD [], kv.fst = lstripSlash kv0.fst := by
    rintro rfl kv hkv
    rw [metaEntries] at hkv
    cases hm : f.doc.meta with
    | none =>
      rw [hm] at hkv
      simp at hkv
    | some m =>
      rw [hm] at hkv
      rcases pypdfMetaLoop_mem m [] kv hkv with h' | ⟨kv0, hkv0, heq⟩
      · simp at h'
      · exact ⟨kv0, hkv0, heq⟩
  refine ⟨?_, ?_, ?_⟩
  · intro h3
    rw [get_pdf_metadata.eq_def, if_neg (by simp [h1]), if_pos (by simp [h3])]
  · intro h3 hpc
    refine ⟨?_, hentries⟩
    rw [get_pdf_metadata.eq_def, if_neg (by simp [h1]), if_neg (by simp [h3]),
        if_pos hpc]
  · intro h3 hpc
    refine ⟨?_, ?_, ?_⟩
    · rw [get_pdf_metadata.eq_def, if_neg (by simp [h1]), if_neg (by simp [h3]),
          if_neg (by simp [hpc])]
    · exact dictSet_lookup_self _ _ _
    · rintro rfl kv hkv
      rw [metaSuccess] at hkv
      rcases dictSet_mem _ _ _ _ hkv with h | h
      · exact Or.inr (hentries rfl kv h)
      · exact Or.inl h

theorem c8_witness :
    get_pdf_metadata TextBackend.pypdf sampleFile false =
      Except.ok (metaSuccess TextBackend.pypdf sampleFile.doc) ∧
    (metaSuccess TextBackend.pypdf sampleFile.doc).lookup "pages" = some (some "2") ∧
    get_pdf_metadata TextBackend.pypdf brokenFile false = Except.ok [] ∧
    get_pdf_metadata TextBackend.pypdf sampleFile true =
      Except.ok (metaEntries TextBackend.pypdf sampleFile.doc) := by
  obtain ⟨_, hpc, hok⟩ := c8_metadata TextBackend.pypdf sampleFile true rfl
  obtain ⟨_, _, hok2⟩ := c8_metadata TextBackend.pypdf sampleFile false rfl
  obtain ⟨ha, hb, _⟩ := hok2 rfl rfl
  refine ⟨ha, ?_, (c8_metadata TextBackend.pypdf brokenFile false rfl).1 rfl,
    (hpc rfl rfl).1⟩
  rw [hb]
  rfl

def c9Opts : HtmlOptions :=
  { cssFileContent := none, cssString := some "x"
    marginTop := none, marginRight := none, marginBottom := none, marginLeft := none }

def c9Html : String := "<html><body>Hi</body></html>"

/-- C9 counterexample: the input is already a full HTML document, yet with a
`css_string` supplied the delegate prepends `<style>x</style>` first, so the
full-document test sees a string starting with `<style>` and wraps anyway —
the claimed "wrap iff the input is not already a full document" fails. -/
theorem c9_counterexample :
    startsWithDocTag c9Html = true ∧
    xhtml2pdfFinalHtml c9Html c9Opts ≠ xhtml2pdfAddCss c9Html c9Opts :=
  ⟨rfl, by decide⟩

/-- C9 (amended): the xhtml2pdf delegate prepends supplied raw CSS (file
content first, else string) as an inline `<style>` block, and wraps the
result in the synthesized full document (with the `@page` margin rule) if
and only if the CSS-prefixed content does not start with a doctype or html
root tag. -/
theorem c9_xhtml2pdf_wrapping (html : String) (o : HtmlOptions) :
    (∀ css, o.cssFileContent = some css →
      xhtml2pdfAddCss html o = "<style>" ++ css ++ "</style>" ++ html) ∧
    (o.cssFileContent = none → ∀ css, o.cssString = some css →
      xhtml2pdfAddCss html o = "<style>" ++ css ++ "</style>" ++ html) ∧
    (startsWithDocTag (xhtml2pdfAddCss html o) = true →
      xhtml2pdfFinalHtml html o = xhtml2pdfAddCss html o) ∧
    (startsWithDocTag (xhtml2pdfAddCss html o) = false →
      xhtml2pdfFinalHtml html o = xhtml2pdfWrap o (xhtml2pdfAddCss html o)) := by
  refine ⟨?_, ?_, ?_, ?_⟩
  · intro css hcss
    rw [xhtml2pdfAddCss, hcss]
  · intro hnone css hcss
    rw [xhtml2pdfAddCss, hnone, hcss]
  · intro hdoc
    simp only [xhtml2pdfFinalHtml, hdoc, Bool.not_true, Bool.false_eq_true, if_false]
  · intro hdoc
    simp only [xhtml2pdfFinalHtml, hdoc, Bool.not_false, if_true]

theorem c9_witness :
    xhtml2pdfAddCss "Hi" c9Opts = "<style>" ++ "x" ++ "</style>" ++ "Hi" ∧
    xhtml2pdfFinalHtml "Hi" noOptions =
      xhtml2pdfWrap noOptions (xhtml2pdfAddCss "Hi" noOptions) :=
  ⟨(c9_xhtml2pdf_wrapping "Hi" c9Opts).2.1 rfl "x" rfl,
   (c9_xhtml2pdf_wrapping "Hi" noOptions).2.2.2 (by decide)⟩

theorem byPageDelegate_shape (b : TextBackend) (doc : PDFDoc) (clean : Bool) :
    byPageDelegate b doc clean = Except.ok (byPageLoop (byPageVal b clean) doc.pages 0) ∨
    byPageDelegate b doc clean = Except.error PyErr.engineError := by
  cases b with
  | pypdf =>
    rw [byPageDelegate, extract_by_page_pypdf]
    by_cases h : doc.openOk = true
    · rw [if_pos h]
      exact Or.inl rfl
    · rw [if_neg h]
      exact Or.inr rfl
  | pdfplumber =>
    rw [byPageDelegate, extract_by_page_pdfplumber]
    by_cases h : doc.openOk = true
    · rw [if_pos h]
      exact Or.inl rfl
    · rw [if_neg h]
      exact Or.inr rfl
  | pymupdf =>
    rw [byPageDelegate, extract_by_page_pymupdf]
    by_cases h : doc.openOk = true
    · rw [if_pos h]
      exact Or.inl rfl
    · rw [if_neg h]
      exact Or.inr rfl

/-- C10: `extract_text_by_page` — and `search_text`, which delegates to it —
validate only that the file exists and never check the extension: on an
existing file whose suffix is not `.pdf` they hand the file straight to the
engine delegate and never produce the wrong-extension error that
`extract_text_from_file` raises on the same file. -/
theorem c10_no_extension_check (b : TextBackend) (f : PdfFile) (query : String)
    (cs clean : Bool) (h1 : f.fileExists = true) (h2 : f.suffixLower ≠ ".pdf") :
    extract_text_by_page b f clean = byPageDelegate b f.doc clean ∧
    extract_text_by_page b f clean ≠ Except.error PyErr.valueError ∧
    search_text b f query cs ≠ Except.error PyErr.valueError ∧
    extract_text_from_file b f none clean = Except.error PyErr.valueError := by
  have hd := extract_by_page_dispatch b f clean h1
  have hdq := extract_by_page_dispatch b f true h1
  refine ⟨hd, ?_, ?_, ?_⟩
  · rw [hd]
    rcases byPageDelegate_shape b f.doc clean with h | h
    · rw [h]
      intro hc
      exact Except.noConfusion hc
    · rw [h]
      intro hc
      have := Except.error.inj hc
      exact PyErr.noConfusion this
  · rw [search_text, hdq]
    rcases byPageDelegate_shape b f.doc true with h | h
    · rw [h]
      intro hc
      exact Except.noConfusion hc
    · rw [h]
      intro hc
      have := Except.error.inj hc
      exact PyErr.noConfusion this
  · rw [extract_text_from_file.eq_def, if_neg (by simp [h1]),
        if_pos (by simp [h2])]

theorem c10_witness :
    extract_text_by_page TextBackend.pypdf notPdfFile true =
      byPageDelegate TextBackend.pypdf notPdfFile.doc true ∧
    extract_text_from_file TextBackend.pypdf notPdfFile none true =
      Except.error PyErr.valueError := by
  obtain ⟨ha, _, _, hd⟩ :=
    c10_no_extension_check TextBackend.pypdf notPdfFile "x" false true rfl (by decide)
  exact ⟨ha, hd⟩
